import Mathlib

/-!
Shallow embedding of the SevenTV entitlements graph system.

Source layout:
* `src/common/src/lib.rs`   — generic node/edge model, direction-dependent
  expansion (`Direction::edge_next`), and the breadth-first traversal engine
  (`Backend::traversal` / `Backend::traversal_filter`).
* `src/common/src/mongo.rs` — the reference storage backend: chunked bulk
  insert (`insert_edges`, chunk size 1000) and direction-aware fetch
  (`fetch_edges`).
* `src/apps/entitlements/src/data.rs` — the concrete node-kind space
  (`EdgeKind`), its textual codec (`Display` / `FromStr`) and the capability
  predicates `has_inbound` / `has_outbound`.
* `src/apps/entitlements/src/transform.rs` — the integrity transform
  (`transform_data`) with the legacy badge→role remap table.

Rust `HashMap` collection (`collect::<HashMap<_,_>>`) is modelled as an
association list deduplicated by key: first occurrence keeps its position,
a later occurrence of the same key overwrites the stored value (exactly the
`insert`-overwrite semantics of `HashMap`); `into_values` reads the list
back in that positional order.  Rust `Vec::sort` over a derived total order
followed by `Vec::dedup` is modelled by insertion sort over the
corresponding lexicographic order followed by removal of consecutive
duplicates.  The `while` loop of `traversal_filter` is modelled with
explicit fuel: `none` means the fuel ran out before the frontier emptied.
-/

/-! ## Generic list helpers -/

/-- Remove consecutive duplicate elements, as Rust's `Vec::dedup`. -/
def dedupConsec {α : Type} [DecidableEq α] : List α → List α
  | [] => []
  | [a] => [a]
  | a :: b :: rest =>
    if a = b then dedupConsec (b :: rest) else a :: dedupConsec (b :: rest)

/-- Structural worker for `chunksOf`: `fuel` bounds the recursion depth and
is always instantiated with the list length, which makes the middle branch
unreachable (a list only reaches it when `fuel` underestimates its length). -/
def chunksOfAux {α : Type} (n : Nat) : Nat → List α → List (List α)
  | _, [] => []
  | 0, l => [l]
  | fuel + 1, x :: xs => (x :: xs.take n) :: chunksOfAux n fuel (xs.drop n)

/-- Split a list into consecutive chunks of `n + 1` elements (the final chunk
may be shorter), as Rust's `slice::chunks`. The chunk size is passed as
`n + 1` so that it is positive by construction. -/
def chunksOf {α : Type} (n : Nat) (l : List α) : List (List α) :=
  chunksOfAux n l.length l

/-- Structural worker for `chunkLens` (same fuel pattern as `chunksOfAux`). -/
def chunkLensAux (n : Nat) : Nat → Nat → List Nat
  | _, 0 => []
  | 0, k + 1 => [k + 1]
  | fuel + 1, k + 1 => min (n + 1) (k + 1) :: chunkLensAux n fuel (k - n)

/-- The lengths of the chunks produced by `chunksOf n` on a list of length
`k`, computed purely arithmetically. -/
def chunkLens (n : Nat) (k : Nat) : List Nat :=
  chunkLensAux n k k

/-- Split a character list at every occurrence of `c`, as Rust's
`str::split(c)`. The result is always non-empty. -/
def splitOnChar (c : Char) : List Char → List (List Char)
  | [] => [[]]
  | x :: xs =>
    match splitOnChar c xs with
    | [] => [[]]
    | p :: ps => if x = c then [] :: p :: ps else (x :: p) :: ps

/-! ## `src/common/src/lib.rs` — node/edge model and traversal engine -/

namespace Common

/-- `Direction` from `common/src/lib.rs`. -/
inductive Direction where
  | inbound
  | outbound
deriving DecidableEq, Repr

/-- `EdgeDestination<K>`: a target node kind plus an `active` flag. -/
structure EdgeDestination (K : Type) where
  «to» : K
  active : Bool
deriving DecidableEq, Repr

/-- `Edge<K>`: one record per source node (`from`) with its destination list. -/
structure Edge (K : Type) where
  «from» : K
  destinations : List (EdgeDestination K)
deriving DecidableEq, Repr

variable {K : Type} [DecidableEq K]

/-- `Direction::edge_next` from `common/src/lib.rs`: direction-dependent
expansion of one fetched edge into next-frontier candidates.  `hin` / `hout`
are the node-kind capability predicates `has_inbound` / `has_outbound`. -/
def Direction.edgeNext (hin hout : K → Bool) (d : Direction) (e : Edge K) : List K :=
  match d with
  | .inbound => if hin e.«from» then [e.«from»] else []
  | .outbound =>
    (e.destinations.filter (fun dest => dest.active && hout dest.«to»)).map (·.«to»)

/-- `fetch_edges` of the reference Mongo backend (`common/src/mongo.rs`),
with the store modelled as the finite list `g` of edge records.  The queried
node set is partitioned into chunks of 1000 (`start_nodes.chunks(1000)`),
each chunk issues one query, and the per-chunk results are flattened in chunk
order (`join_all` preserves order).
* Outbound chunk query: records whose `_id` (source) is in the chunk.
* Inbound chunk query: records having at least one destination that equals
  `EdgeDestination { to: k, active: true }` for some `k` in the chunk; the
  projection `destinations: 0` strips the destination list from the result
  (`serde` then defaults it to the empty vector). -/
def fetchEdges (g : List (Edge K)) (d : Direction) (ns : List K) : List (Edge K) :=
  (chunksOf 999 ns).flatMap fun chunk =>
    match d with
    | .inbound =>
      (g.filter fun e =>
        e.destinations.any fun dest => dest.active && decide (dest.«to» ∈ chunk)).map
        fun e => { e with destinations := [] }
    | .outbound => g.filter fun e => decide (e.«from» ∈ chunk)

/-- The `while !next_edges.is_empty()` loop of `Backend::traversal_filter`
(`common/src/lib.rs`), with explicit fuel.  `filter` is the mutable
membership predicate (state type `σ`): it both tests and records visitation.
Per iteration: fetch all edges for the current frontier, compute candidates
with `edge_next`, keep those the predicate accepts as the next frontier, and
append the fetched edges to the accumulated result.  `none` means the fuel
ran out before the frontier emptied. -/
def traversalLoop (g : List (Edge K)) (hin hout : K → Bool) (d : Direction)
    {σ : Type} (filter : σ → K → Bool × σ) :
    Nat → σ → List K → List (Edge K) → Option (List (Edge K) × σ)
  | 0, s, frontier, acc => if frontier.isEmpty then some (acc, s) else none
  | fuel + 1, s, frontier, acc =>
    if frontier.isEmpty then some (acc, s)
    else
      let newEdges := fetchEdges g d frontier
      let cands := newEdges.flatMap (Direction.edgeNext hin hout d)
      let step := cands.foldl
        (fun (p : List K × σ) k =>
          let (ok, s') := filter p.2 k
          (if ok then p.1 ++ [k] else p.1, s'))
        ([], s)
      traversalLoop g hin hout d filter fuel step.2 step.1 (acc ++ newEdges)

/-- `Backend::traversal_filter`: seed the frontier with the start node if the
predicate accepts it, then run the loop.  Returns the accumulated edge list
together with the final predicate state. -/
def traversalFilter (g : List (Edge K)) (hin hout : K → Bool) (d : Direction)
    {σ : Type} (filter : σ → K → Bool × σ) (fuel : Nat) (s₀ : σ) (startNode : K) :
    Option (List (Edge K) × σ) :=
  let (ok, s₁) := filter s₀ startNode
  traversalLoop g hin hout d filter fuel s₁ (if ok then [startNode] else []) []

/-- The default visited-set predicate `|kind| visited.insert(kind.clone())`
of `Backend::traversal` (`HashSet::insert` returns `true` exactly when the
element was not yet present, and records it either way). -/
def visitedFilter (visited : Finset K) (k : K) : Bool × Finset K :=
  (decide (k ∉ visited), insert k visited)

/-- `Backend::traversal`: `traversal_filter` with the default visited-set
predicate over an initially empty set. -/
def traversal (g : List (Edge K)) (hin hout : K → Bool) (d : Direction)
    (fuel : Nat) (startNode : K) : Option (List (Edge K) × Finset K) :=
  traversalFilter g hin hout d visitedFilter fuel ∅ startNode

/-- One step of the default visited-set predicate inside the traversal fold:
push the candidate onto the next frontier exactly when it is fresh, and
record it as visited either way. -/
def visitStep (p : List K × Finset K) (k : K) : List K × Finset K :=
  (if k ∉ p.2 then p.1 ++ [k] else p.1, insert k p.2)

/-- All node identities mentioned anywhere in the stored edge set: sources
and destination targets. -/
def nodeFinset (g : List (Edge K)) : Finset K :=
  (g.map (·.«from»)).toFinset ∪
    (g.flatMap fun e => e.destinations.map (·.«to»)).toFinset

end Common

/-! ## `src/apps/entitlements/src/data.rs` — concrete node-kind space -/

namespace Ent

/-- `EdgeKind` from `entitlements/src/data.rs`: the closed node-kind space. -/
inductive EdgeKind where
  | user (id : String)
  | role (id : String)
  | badge (id : String)
  | paint (id : String)
  | emoteSet (id : String)
  | product (id : String)
  | giftReward (id : String)
  | userSubscriptionTimeline (subscriptionTimelineId : String) (userId : String)
  | subscriptionTimelinePeriod (subscriptionTimelineId : String) (periodId : String)
deriving DecidableEq, Repr

/-- The `Display` impl for `EdgeKind`: the textual encoding
`<tag>:<field1>[:<field2>]` used as storage key and CLI literal. -/
def EdgeKind.format : EdgeKind → String
  | .user id => "user:" ++ id
  | .role id => "role:" ++ id
  | .badge id => "badge:" ++ id
  | .paint id => "paint:" ++ id
  | .emoteSet id => "emote-set:" ++ id
  | .product id => "product:" ++ id
  | .giftReward id => "gift-reward:" ++ id
  | .userSubscriptionTimeline subscriptionTimelineId userId =>
    "user-subscription-timeline:" ++ userId ++ ":" ++ subscriptionTimelineId
  | .subscriptionTimelinePeriod subscriptionTimelineId periodId =>
    "subscription-timeline-period:" ++ subscriptionTimelineId ++ ":" ++ periodId

/-- The `FromStr` impl for `EdgeKind`: split on `':'` and match the parts
against the fixed table of accepted tags; anything else is the error
`invalid edge kind: <input>`. -/
def EdgeKind.parse (s : String) : Except String EdgeKind :=
  match (splitOnChar ':' s.data).map String.mk with
  | ["user", id] => .ok (.user id)
  | ["role", id] => .ok (.role id)
  | ["badge", id] => .ok (.badge id)
  | ["paint", id] => .ok (.paint id)
  | ["emote-set", id] => .ok (.emoteSet id)
  | ["product", id] => .ok (.product id)
  | ["gift-reward", id] => .ok (.giftReward id)
  | ["user-subscription-timeline", userId, subscriptionTimelineId] =>
    .ok (.userSubscriptionTimeline subscriptionTimelineId userId)
  | ["subscription-timeline-period", subscriptionTimelineId, periodId] =>
    .ok (.subscriptionTimelinePeriod subscriptionTimelineId periodId)
  | _ => .error ("invalid edge kind: " ++ s)

/-- `has_inbound` for the entitlements `EdgeKind`: every variant except
`User`. -/
def EdgeKind.hasInbound : EdgeKind → Bool
  | .userSubscriptionTimeline _ _ => true
  | .giftReward _ => true
  | .product _ => true
  | .subscriptionTimelinePeriod _ _ => true
  | .badge _ => true
  | .paint _ => true
  | .emoteSet _ => true
  | .role _ => true
  | .user _ => false

/-- `has_outbound` for the entitlements `EdgeKind`. -/
def EdgeKind.hasOutbound : EdgeKind → Bool
  | .user _ => true
  | .role _ => true
  | .product _ => true
  | .giftReward _ => true
  | .subscriptionTimelinePeriod _ _ => true
  | .userSubscriptionTimeline _ _ => true
  | .badge _ => false
  | .paint _ => false
  | .emoteSet _ => false

/-- All identifier fields of a node kind are free of the `':'` delimiter. -/
def EdgeKind.colonFree : EdgeKind → Prop
  | .user id => (':' : Char) ∉ id.data
  | .role id => (':' : Char) ∉ id.data
  | .badge id => (':' : Char) ∉ id.data
  | .paint id => (':' : Char) ∉ id.data
  | .emoteSet id => (':' : Char) ∉ id.data
  | .product id => (':' : Char) ∉ id.data
  | .giftReward id => (':' : Char) ∉ id.data
  | .userSubscriptionTimeline a b => (':' : Char) ∉ a.data ∧ (':' : Char) ∉ b.data
  | .subscriptionTimelinePeriod a b => (':' : Char) ∉ a.data ∧ (':' : Char) ∉ b.data

instance (k : EdgeKind) : Decidable k.colonFree := by
  cases k <;> simp only [EdgeKind.colonFree] <;> infer_instance

end Ent

/-! ## `src/apps/entitlements/src/binary.rs` — raw record types -/

namespace Binary

/-- `ItemKind` from `binary.rs`. -/
inductive ItemKind where
  | badge
  | paint
  | emoteSet
deriving DecidableEq, Repr

/-- `EdgeKind` from `binary.rs` (declaration order fixes the derived `Ord`
discriminant order). -/
inductive EdgeKind where
  | badge
  | paint
  | emoteSet
  | role
  | product
  | userProduct
  | group
deriving DecidableEq, Repr

/-- Discriminant of `EdgeKind` in declaration order, the key the derived Rust
`Ord` compares enum variants by. -/
def EdgeKind.rank : EdgeKind → Nat
  | .badge => 0
  | .paint => 1
  | .emoteSet => 2
  | .role => 3
  | .product => 4
  | .userProduct => 5
  | .group => 6

/-- `Edge` from `binary.rs`: a raw denormalized edge record. -/
structure Edge where
  id : String
  kind : EdgeKind
  active : Bool
deriving DecidableEq, Repr

/-- The key the derived `Ord` on `Edge` sorts by: lexicographic over the
fields in declaration order (`id`, then `kind` discriminant, then `active`
with `false < true`).  Rust compares `String`s bytewise over UTF-8, which
coincides with Lean's code-point lexicographic `String` order. -/
def Edge.key (e : Edge) : (List Char) ×ₗ (Nat ×ₗ Bool) :=
  toLex (e.id.data, toLex (e.kind.rank, e.active))

/-- The derived total order on `Edge` used by `Vec::sort`. -/
def Edge.le (a b : Edge) : Prop := a.key ≤ b.key

instance : DecidableRel Edge.le := fun a b =>
  inferInstanceAs (Decidable (a.key ≤ b.key))

/-- `Vec::sort` followed by `Vec::dedup` on an edge list: stable sort by the
derived total order, then removal of consecutive duplicates. -/
def sortDedup (l : List Edge) : List Edge :=
  dedupConsec (List.insertionSort Edge.le l)

/-- `Item` from `binary.rs`. -/
structure Item where
  id : String
  kind : ItemKind
  name : String
deriving DecidableEq, Repr

/-- `Role` from `binary.rs`. -/
structure Role where
  id : String
  name : String
  edges : List Edge
deriving DecidableEq, Repr

/-- `Group` from `binary.rs`. -/
structure Group where
  id : String
  productId : String
  edges : List Edge
deriving DecidableEq, Repr

/-- `Product` from `binary.rs`. -/
structure Product where
  id : String
  name : String
  isStatic : Bool
  edges : List Edge
deriving DecidableEq, Repr

/-- `User` from `binary.rs`. -/
structure User where
  id : String
  username : String
  edges : List Edge
deriving DecidableEq, Repr

/-- `UserProduct` from `binary.rs`. -/
structure UserProduct where
  id : String
  userId : String
  productId : String
  edges : List Edge
deriving DecidableEq, Repr

/-- `BinaryData` from `binary.rs`: the full record set the transform runs on. -/
structure BinaryData where
  users : List User
  roles : List Role
  items : List Item
  products : List Product
  userProducts : List UserProduct
  groups : List Group
deriving DecidableEq, Repr

/-! ### `HashMap` modelling

`iter.map(|x| (key(x), x)).collect::<HashMap<_,_>>()` inserts every record
under its key, a later record with the same key overwriting the earlier one;
`into_values` then reads the map back.  We model the map as the association
list in first-insertion order with last-write-wins values. -/

/-- One `HashMap::insert`: overwrite the entry with the same key if present,
otherwise append. -/
def keyUpdate {α : Type} (key : α → String) (m : List α) (x : α) : List α :=
  if m.any (fun y => key y == key x) then
    m.map fun y => if key y == key x then x else y
  else m ++ [x]

/-- `collect::<HashMap<_,_>>` over records keyed by `key`. -/
def collectByKey {α : Type} (key : α → String) (l : List α) : List α :=
  l.foldl (keyUpdate key) []

/-- `HashMap::contains_key`. -/
def containsKey {α : Type} (key : α → String) (m : List α) (k : String) : Bool :=
  m.any fun y => key y == k

end Binary

/-! ## `src/apps/entitlements/src/transform.rs` — the integrity transform -/

namespace Binary

/-- `BADGE_TO_ROLES` from `transform.rs`: the fixed legacy
(badge identity → role identity) remap table. -/
def badgeToRoles : List (String × String) :=
  [("62f98382e46eb00e438a6971", "6102002eab1aa12bf648cfcd"),
   ("62f98438e46eb00e438a6972", "60724f65e93d828bf8858789"),
   ("62f99bc1e46eb00e438a6981", "60b3f1ea886e63449c5263b1"),
   ("62f99c5ae46eb00e438a6982", "608831312a61f51b61f2974d"),
   ("62f99d0ce46eb00e438a6984", "634494ebddb12c4c4f707a3a"),
   ("634494ebddb12c4c4f707a3f", "62f99d0ce46eb00e438a6985")]

/-- `new_roles` from `transform.rs`: the synthetic roles merged into the role
stage. -/
def newRoles : List Role :=
  [{ id := "634494ebddb12c4c4f707a3a", name := "Translator",
     edges := [{ id := "634494ebddb12c4c4f707a3f", kind := .badge, active := true }] },
   { id := "62f99d0ce46eb00e438a6985", name := "Event Coordinator",
     edges := [{ id := "62f99d0ce46eb00e438a6984", kind := .badge, active := true }] }]

/-- The synthetic badge edges pushed into a role whose id is a remap-table
target (the `for (cosmetic_id, _) in BADGE_TO_ROLES … role.edges.push(…)`
loop of the roles stage).  Note these are pushed after the item-validity
filter has already run. -/
def badgePushes (roleId : String) : List Edge :=
  (badgeToRoles.filter fun p => p.2 == roleId).map
    fun p => { id := p.1, kind := EdgeKind.badge, active := true }

/-- The per-role body of the roles stage: drop edges whose id is not a
surviving item, push the synthetic legacy badge edges, then sort and dedup. -/
def roleProcess (items : List Item) (r : Role) : Role :=
  { r with edges :=
      sortDedup ((r.edges.filter fun e => containsKey Item.id items e.id) ++
        badgePushes r.id) }

/-- The group-stage edge retention predicate. -/
def groupEdgeValid (items : List Item) (roles : List Role) (e : Edge) : Bool :=
  match e.kind with
  | .role => containsKey Role.id roles e.id
  | .badge | .paint | .emoteSet => containsKey Item.id items e.id
  | _ => false

/-- The per-group body of the groups stage (no sort, no dedup). -/
def groupProcess (items : List Item) (roles : List Role) (gr : Group) : Group :=
  { gr with edges := gr.edges.filter (groupEdgeValid items roles) }

/-- One step of the product-stage `retain` closure: keep item/role edges that
resolve, consume a `Group` edge by backfilling that group's owning product id
(and drop the edge), drop everything else.  The state is the pair of the
kept-edge list and the (mutated) group map. -/
def productEdgeStep (items : List Item) (roles : List Role) (productId : String)
    (st : List Edge × List Group) (e : Edge) : List Edge × List Group :=
  match e.kind with
  | .badge | .paint | .emoteSet =>
    (if containsKey Item.id items e.id then st.1 ++ [e] else st.1, st.2)
  | .role => (if containsKey Role.id roles e.id then st.1 ++ [e] else st.1, st.2)
  | .group =>
    (st.1, st.2.map fun gr => if gr.id == e.id then { gr with productId := productId } else gr)
  | _ => (st.1, st.2)

/-- The products stage: process every surviving product record in order,
threading the group map through the `Group`-edge side channel; each product's
kept edges are sorted and deduped. -/
def productsStage (items : List Item) (roles : List Role)
    (groups : List Group) (products : List Product) : List Product × List Group :=
  products.foldl
    (fun (st : List Product × List Group) p =>
      let r := p.edges.foldl (productEdgeStep items roles p.id) ([], st.2)
      (st.1 ++ [{ p with edges := sortDedup r.1 }], r.2))
    ([], groups)

/-- The product-stage validity of a kept edge (the claim-side reading of the
product `retain` arms: item kinds resolve against closed items, `Role`
against closed roles, everything else is dropped). -/
def productEdgeValid (items : List Item) (roles : List Role) (e : Edge) : Bool :=
  match e.kind with
  | .badge | .paint | .emoteSet => containsKey Item.id items e.id
  | .role => containsKey Role.id roles e.id
  | _ => false

/-- The identity-relevant part of a group record: its key and edge list
(everything except the backfilled owning-product id). -/
def groupShape (gr : Group) : String × List Edge := (gr.id, gr.edges)

/-- The user-product-stage edge retention predicate. -/
def upEdgeValid (groups : List Group) (products : List Product)
    (userProductIds : List String) (e : Edge) : Bool :=
  match e.kind with
  | .group => containsKey Group.id groups e.id
  | .product => containsKey Product.id products e.id
  | .userProduct => userProductIds.any fun i => i == e.id
  | _ => false

/-- The in-place legacy badge→role rewrite of the users stage: a `Badge`
edge whose id is a remap-table source becomes a `Role` edge pointing at the
mapped role (the `active` flag is kept). -/
def remapEdge (e : Edge) : Edge :=
  if e.kind == EdgeKind.badge then
    match badgeToRoles.find? (fun p => p.1 == e.id) with
    | some p => { e with id := p.2, kind := EdgeKind.role }
    | none => e
  else e

/-- The user-stage edge retention predicate (run after the remap). -/
def userEdgeValid (items : List Item) (roles : List Role)
    (products : List Product) (userProducts : List UserProduct) (e : Edge) : Bool :=
  match e.kind with
  | .role => containsKey Role.id roles e.id
  | .badge | .emoteSet | .paint => containsKey Item.id items e.id
  | .product => containsKey Product.id products e.id
  | .userProduct => containsKey UserProduct.id userProducts e.id
  | .group => false

/-- The per-user body of the users stage: remap legacy badges, drop edges
that do not resolve, then sort and dedup. -/
def userProcess (items : List Item) (roles : List Role)
    (products : List Product) (userProducts : List UserProduct) (u : User) : User :=
  { u with edges :=
      sortDedup ((u.edges.map remapEdge).filter
        (userEdgeValid items roles products userProducts)) }

/-- Stage 1 (items): drop empty-id records, collect by id. -/
def itemsStage (d : BinaryData) : List Item :=
  collectByKey Item.id (d.items.filter fun c => !(c.id == ""))

/-- Stage 2 (roles): drop empty-id records, merge the synthetic roles, run
the per-role body, collect by id. -/
def rolesStage (items : List Item) (d : BinaryData) : List Role :=
  collectByKey Role.id
    (((d.roles.filter fun r => !(r.id == "")) ++ newRoles).map (roleProcess items))

/-- Stage 3 (groups): drop empty-id records, retain resolvable edges,
collect by id. -/
def groupsStage (items : List Item) (roles : List Role) (d : BinaryData) :
    List Group :=
  collectByKey Group.id
    ((d.groups.filter fun gr => !(gr.id == "")).map (groupProcess items roles))

/-- Stage 4 (products): drop empty-id records and run the product fold that
also backfills group owning-product ids. -/
def productsGroups (items : List Item) (roles : List Role)
    (groups₀ : List Group) (d : BinaryData) : List Product × List Group :=
  productsStage items roles groups₀ (d.products.filter fun p => !(p.id == ""))

/-- Stage 5 (user-products): collect by id (no empty-id filter in the
source), snapshot the key set, then retain resolvable edges and sort/dedup. -/
def userProductsStage (groups : List Group) (products : List Product)
    (d : BinaryData) : List UserProduct :=
  (collectByKey UserProduct.id d.userProducts).map fun up =>
    { up with edges :=
        sortDedup (up.edges.filter (upEdgeValid groups products
          ((collectByKey UserProduct.id d.userProducts).map UserProduct.id))) }

/-- Stage 6 (users): drop empty-id records, remap legacy badges, retain
resolvable edges, sort/dedup, collect by id. -/
def usersStage (items : List Item) (roles : List Role)
    (products : List Product) (userProducts : List UserProduct)
    (d : BinaryData) : List User :=
  collectByKey User.id
    ((d.users.filter fun u => !(u.id == "")).map
      (userProcess items roles products userProducts))

/-- `transform_data` from `transform.rs`: the six-stage integrity transform.
Stages run in dependency order; each stage collects its records into a map
keyed by id (dropping empty-id records where the source does) and validates
edges against the already-closed earlier stages.  The output lists are the
maps read back out (`into_values`). -/
def transformData (d : BinaryData) : BinaryData :=
  let items := itemsStage d
  let roles := rolesStage items d
  let groups₀ := groupsStage items roles d
  let pg := productsGroups items roles groups₀ d
  let products := collectByKey Product.id pg.1
  let userProducts := userProductsStage pg.2 products d
  let users := usersStage items roles products userProducts d
  { users := users, roles := roles, items := items, products := products,
    userProducts := userProducts, groups := pg.2 }

end Binary

/-! ## `src/common/src/mongo.rs` — chunked bulk insert -/

namespace Mongo

/-- `insert_edges` from `common/src/mongo.rs`, abstracted to the sequence of
bulk-write batches it issues: the collected input is partitioned into
consecutive chunks of `BATCH_SIZE = 1000` (`data.chunks(BATCH_SIZE)`), and
the chunks are sent sequentially, each as one unordered `insert_many`. -/
def insertBatches {α : Type} (edges : List α) : List (List α) :=
  chunksOf 999 edges

end Mongo

/-! ### Order instances for the derived `Ord` on `Binary.Edge` -/

namespace Binary

instance : IsTrans Edge Edge.le where
  trans _ _ _ hab hbc := le_trans hab hbc

instance : IsTotal Edge Edge.le where
  total a b := le_total a.key b.key

instance : IsAntisymm Edge Edge.le where
  antisymm a b hab hba := by
    obtain ⟨ai, ak, aa⟩ := a
    obtain ⟨bi, bk, ba⟩ := b
    have h : Edge.key ⟨ai, ak, aa⟩ = Edge.key ⟨bi, bk, ba⟩ := le_antisymm hab hba
    simp only [Edge.key, toLex_inj, Prod.mk.injEq] at h
    obtain ⟨h1, h2, h3⟩ := h
    have h1' : ai = bi := by
      cases ai
      cases bi
      exact congrArg String.mk (by simpa using h1)
    subst h1'
    subst h3
    cases ak <;> cases bk <;> simp_all [EdgeKind.rank]

instance : IsRefl Edge Edge.le where
  refl a := le_refl a.key

end Binary


/-! ### Concrete stores used by the testable properties -/

/-- Test graph from §8 of the spec: A→B→C plus a back-edge B→A, all
destinations active, all nodes of a kind with both capabilities (roles). -/
def cycleGraph : List (Common.Edge Ent.EdgeKind) :=
  [{ «from» := .role "a", destinations := [{ «to» := .role "b", active := true }] },
   { «from» := .role "b", destinations := [{ «to» := .role "c", active := true },
                                           { «to» := .role "a", active := true }] }]

/-- A store on which inbound traversal returns the same stored edge twice:
the edge s→{a, b} matches the frontier {a} at level 0 and the frontier
{s, b} at level 1 (through its destination b, discovered via the edge b→a). -/
def inboundDupGraph : List (Common.Edge Ent.EdgeKind) :=
  [{ «from» := .role "s", destinations := [{ «to» := .badge "a", active := true },
                                           { «to» := .role "b", active := true }] },
   { «from» := .role "b", destinations := [{ «to» := .badge "a", active := true }] }]

/-- The empty record set. -/
def emptyBD : Binary.BinaryData :=
  { users := [], roles := [], items := [], products := [], userProducts := [],
    groups := [] }

/-- A record set whose single group carries an unsorted, duplicated edge
list over surviving items. -/
def groupDupBD : Binary.BinaryData :=
  { users := [], roles := [], products := [], userProducts := [],
    items := [{ id := "ia", kind := .badge, name := "A" },
              { id := "ib", kind := .paint, name := "B" }],
    groups := [{ id := "g1", productId := "",
                 edges := [{ id := "ib", kind := .paint, active := true },
                           { id := "ia", kind := .badge, active := true },
                           { id := "ia", kind := .badge, active := true }] }] }

/-- A record set with a user holding the legacy admin badge but no admin
role record: the remapped role edge cannot resolve and is dropped. -/
def c8Bad : Binary.BinaryData :=
  { users := [{ id := "u1", username := "alice",
                edges := [{ id := "62f98382e46eb00e438a6971",
                            kind := .badge, active := true }] }],
    roles := [], items := [], products := [], userProducts := [], groups := [] }

/-- A record set with a user holding the legacy admin badge and the admin
role present, so the remap produces a surviving role edge. -/
def c8Good : Binary.BinaryData :=
  { users := [{ id := "u1", username := "alice",
                edges := [{ id := "62f98382e46eb00e438a6971",
                            kind := .badge, active := true }] }],
    roles := [{ id := "6102002eab1aa12bf648cfcd", name := "Admin", edges := [] }],
    items := [], products := [], userProducts := [], groups := [] }

/-! ## Theorems -/

theorem splitOnChar_ne_nil (c : Char) (l : List Char) : splitOnChar c l ≠ [] := by
  cases l with
  | nil => simp [splitOnChar]
  | cons x xs =>
    simp only [splitOnChar]
    cases h : splitOnChar c xs with
    | nil => simp
    | cons p ps =>
      by_cases hx : x = c <;> simp [hx]

theorem splitOnChar_of_not_mem {c : Char} {l : List Char} (h : c ∉ l) :
    splitOnChar c l = [l] := by
  induction l with
  | nil => rfl
  | cons x xs ih =>
    have hx : x ≠ c := fun hc => h (hc ▸ List.mem_cons_self x xs)
    have hxs : c ∉ xs := fun hc => h (List.mem_cons_of_mem x hc)
    simp only [splitOnChar, ih hxs, if_neg hx]

theorem splitOnChar_append {c : Char} {a b : List Char} (h : c ∉ a) :
    splitOnChar c (a ++ c :: b) = a :: splitOnChar c b := by
  induction a with
  | nil =>
    simp only [List.nil_append, splitOnChar]
    cases hb : splitOnChar c b with
    | nil => exact absurd hb (splitOnChar_ne_nil c b)
    | cons p ps => simp
  | cons x xs ih =>
    have hx : x ≠ c := fun hc => h (hc ▸ List.mem_cons_self x xs)
    have hxs : c ∉ xs := fun hc => h (List.mem_cons_of_mem x hc)
    simp only [List.cons_append, splitOnChar, List.append_eq, ih hxs, if_neg hx]

theorem chunksOfAux_congr {α : Type} (n : Nat) :
    ∀ (fuel : Nat) (l : List α), l.length ≤ fuel →
      chunksOfAux n fuel l = chunksOfAux n l.length l
  | 0, [], _ => rfl
  | 0, x :: xs, h => by simp at h
  | fuel + 1, [], _ => rfl
  | fuel + 1, x :: xs, h => by
    have h1 : (xs.drop n).length ≤ fuel := by
      simp only [List.length_cons] at h
      simp only [List.length_drop]
      omega
    have h2 : (xs.drop n).length ≤ xs.length := by
      simp only [List.length_drop]
      omega
    simp only [chunksOfAux, List.length_cons]
    rw [chunksOfAux_congr n fuel (xs.drop n) h1,
      chunksOfAux_congr n xs.length (xs.drop n) h2]

theorem chunksOf_cons {α : Type} (n : Nat) (x : α) (xs : List α) :
    chunksOf n (x :: xs) = (x :: xs.take n) :: chunksOf n (xs.drop n) := by
  show chunksOfAux n (xs.length + 1) (x :: xs) = _
  simp only [chunksOfAux]
  rw [chunksOfAux_congr n xs.length (xs.drop n) (by simp [List.length_drop])]
  rfl

theorem chunksOf_flatten {α : Type} (n : Nat) (l : List α) :
    (chunksOf n l).flatten = l := by
  generalize hk : l.length = k
  induction k using Nat.strong_induction_on generalizing l with
  | _ k ih =>
    cases l with
    | nil => rfl
    | cons x xs =>
      rw [chunksOf_cons, List.flatten_cons,
        ih (xs.drop n).length (by subst hk; simp [List.length_drop]; omega) _ rfl,
        List.cons_append, List.take_append_drop]

theorem mem_chunksOf_flatten {α : Type} {n : Nat} {l : List α} {x : α}
    {c : List α} (hc : c ∈ chunksOf n l) (hx : x ∈ c) : x ∈ l := by
  have := chunksOf_flatten n l
  rw [← this]
  exact List.mem_flatten.mpr ⟨c, hc, hx⟩

theorem splitOnChar_two (t a : List Char) (ht : (':' : Char) ∉ t)
    (ha : (':' : Char) ∉ a) : splitOnChar ':' ((t ++ [':']) ++ a) = [t, a] := by
  have h : (t ++ [':']) ++ a = t ++ ':' :: a := by
    rw [List.append_assoc]; rfl
  rw [h, splitOnChar_append ht, splitOnChar_of_not_mem ha]

theorem splitOnChar_three (t b a : List Char) (ht : (':' : Char) ∉ t)
    (hb : (':' : Char) ∉ b) (ha : (':' : Char) ∉ a) :
    splitOnChar ':' ((((t ++ [':']) ++ b) ++ [':']) ++ a) = [t, b, a] := by
  have h : (((t ++ [':']) ++ b) ++ [':']) ++ a = t ++ ':' :: (b ++ ':' :: a) := by
    rw [List.append_assoc, List.append_assoc, List.append_assoc]; rfl
  rw [h, splitOnChar_append ht, splitOnChar_append hb, splitOnChar_of_not_mem ha]

theorem mem_dedupConsec {α : Type} [DecidableEq α] {l : List α} {x : α} :
    x ∈ dedupConsec l ↔ x ∈ l := by
  induction l using dedupConsec.induct with
  | case1 => simp [dedupConsec]
  | case2 a => simp [dedupConsec]
  | case3 b rest ih =>
    rw [dedupConsec, if_pos rfl, ih]
    simp only [List.mem_cons]
    tauto
  | case4 a b rest hab ih =>
    simp only [dedupConsec, if_neg hab, List.mem_cons, ih]

theorem dedupConsec_sublist {α : Type} [DecidableEq α] (l : List α) :
    List.Sublist (dedupConsec l) l := by
  induction l using dedupConsec.induct with
  | case1 => simp [dedupConsec]
  | case2 a => simp [dedupConsec]
  | case3 b rest ih =>
    simp only [dedupConsec, if_pos rfl]
    exact ih.cons _
  | case4 a b rest hab ih =>
    simp only [dedupConsec, if_neg hab]
    exact ih.cons₂ _

/-! ### Sorting and dedup lemmas for the transform -/

namespace Binary

theorem sorted_dedupConsec {α : Type} [DecidableEq α] {r : α → α → Prop}
    {l : List α} (h : List.Sorted r l) : List.Sorted r (dedupConsec l) :=
  h.sublist (dedupConsec_sublist l)

theorem nodup_dedupConsec_of_sorted {l : List Edge}
    (h : List.Sorted Edge.le l) : (dedupConsec l).Nodup := by
  induction l using dedupConsec.induct with
  | case1 => simp [dedupConsec]
  | case2 a => simp [dedupConsec]
  | case3 b rest ih =>
    rw [dedupConsec, if_pos rfl]
    exact ih (h.sublist (List.sublist_cons_self b (b :: rest)))
  | case4 a b rest hab ih =>
    rw [dedupConsec, if_neg hab]
    have htail : List.Sorted Edge.le (b :: rest) :=
      h.sublist (List.sublist_cons_self a (b :: rest))
    refine List.Nodup.cons ?_ (ih htail)
    intro hmem
    have hmem' : a ∈ b :: rest := mem_dedupConsec.mp hmem
    rcases List.mem_cons.mp hmem' with h1 | h1
    · exact hab h1
    · have hab' : Edge.le a b := List.rel_of_sorted_cons h b (List.mem_cons_self b rest)
      have hba : Edge.le b a := List.rel_of_sorted_cons htail a h1
      have hle : Edge.le a b → Edge.le b a → a = b := fun x y => antisymm x y
      exact hab (hle hab' hba)

theorem sortDedup_sorted (l : List Edge) : List.Sorted Edge.le (sortDedup l) :=
  sorted_dedupConsec (List.sorted_insertionSort Edge.le l)

theorem sortDedup_nodup (l : List Edge) : (sortDedup l).Nodup :=
  nodup_dedupConsec_of_sorted (List.sorted_insertionSort Edge.le l)

theorem mem_sortDedup {l : List Edge} {x : Edge} : x ∈ sortDedup l ↔ x ∈ l := by
  rw [sortDedup, mem_dedupConsec]
  exact (List.perm_insertionSort Edge.le l).mem_iff

theorem eq_of_sorted_nodup_ext {l₁ l₂ : List Edge}
    (hs₁ : List.Sorted Edge.le l₁) (hn₁ : l₁.Nodup)
    (hs₂ : List.Sorted Edge.le l₂) (hn₂ : l₂.Nodup)
    (hext : ∀ x, x ∈ l₁ ↔ x ∈ l₂) : l₁ = l₂ :=
  List.eq_of_perm_of_sorted ((List.perm_ext_iff_of_nodup hn₁ hn₂).mpr hext) hs₁ hs₂

theorem sortDedup_ext {l₁ l₂ : List Edge} (hext : ∀ x, x ∈ l₁ ↔ x ∈ l₂) :
    sortDedup l₁ = sortDedup l₂ :=
  eq_of_sorted_nodup_ext (sortDedup_sorted l₁) (sortDedup_nodup l₁)
    (sortDedup_sorted l₂) (sortDedup_nodup l₂)
    (fun x => by rw [mem_sortDedup, mem_sortDedup]; exact hext x)

theorem sortDedup_eq_self {l : List Edge} (hs : List.Sorted Edge.le l)
    (hn : l.Nodup) : sortDedup l = l :=
  eq_of_sorted_nodup_ext (sortDedup_sorted l) (sortDedup_nodup l) hs hn
    (fun _ => mem_sortDedup)

theorem sortDedup_idem (l : List Edge) : sortDedup (sortDedup l) = sortDedup l :=
  sortDedup_eq_self (sortDedup_sorted l) (sortDedup_nodup l)

end Binary

/-! ### Association-list map lemmas -/

namespace Binary

variable {α : Type} {key : α → String}

theorem containsKey_iff {m : List α} {k : String} :
    containsKey key m k = true ↔ ∃ y ∈ m, key y = k := by
  simp [containsKey, List.any_eq_true, beq_iff_eq]

theorem mem_of_mem_keyUpdate {m : List α} {x y : α}
    (h : y ∈ keyUpdate key m x) : y ∈ m ∨ y = x := by
  unfold keyUpdate at h
  split at h
  · rcases List.mem_map.mp h with ⟨z, hz, hzy⟩
    by_cases hk : key z == key x
    · right; rw [if_pos hk] at hzy; exact hzy.symm
    · left; rw [if_neg hk] at hzy; exact hzy ▸ hz
  · rcases List.mem_append.mp h with h1 | h1
    · exact Or.inl h1
    · exact Or.inr (List.mem_singleton.mp h1)

theorem mem_keyUpdate_self {m : List α} (x : α) : x ∈ keyUpdate key m x := by
  unfold keyUpdate
  by_cases h : m.any (fun y => key y == key x)
  · rw [if_pos h]
    rcases List.any_eq_true.mp h with ⟨z, hz, hzk⟩
    exact List.mem_map.mpr ⟨z, hz, by rw [if_pos hzk]⟩
  · rw [if_neg h]
    exact List.mem_append.mpr (Or.inr (List.mem_singleton.mpr rfl))

theorem mem_keyUpdate_of_ne {m : List α} {x y : α} (hy : y ∈ m)
    (hne : key y ≠ key x) : y ∈ keyUpdate key m x := by
  unfold keyUpdate
  split
  · exact List.mem_map.mpr ⟨y, hy, by rw [if_neg (by simpa using hne)]⟩
  · exact List.mem_append.mpr (Or.inl hy)

theorem keys_keyUpdate (m : List α) (x : α) :
    (keyUpdate key m x).map key =
      if m.any (fun y => key y == key x) then m.map key
      else m.map key ++ [key x] := by
  unfold keyUpdate
  by_cases h : m.any (fun y => key y == key x)
  · rw [if_pos h, if_pos h, List.map_map]
    refine List.map_congr_left fun y _ => ?_
    by_cases hk : key y == key x
    · simp only [Function.comp, if_pos hk]
      exact (beq_iff_eq.mp hk).symm
    · simp only [Function.comp, if_neg hk]
  · rw [if_neg h, if_neg h, List.map_append, List.map_singleton]

theorem keyUpdate_eq_self {m : List α} {x : α}
    (hn : (m.map key).Nodup) (hx : x ∈ m) : keyUpdate key m x = m := by
  unfold keyUpdate
  rw [if_pos (List.any_eq_true.mpr ⟨x, hx, beq_self_eq_true (key x)⟩)]
  have hmap : List.map (fun y => if (key y == key x) = true then x else y) m =
      List.map id m := by
    refine List.map_congr_left fun y hy => ?_
    by_cases hk : key y == key x
    · rw [if_pos hk, id]
      exact List.inj_on_of_nodup_map hn hx hy (beq_iff_eq.mp hk).symm
    · rw [if_neg hk, id]
  rw [hmap, List.map_id]

end Binary

namespace Binary

theorem collectByKey_append_singleton {α : Type} (key : α → String)
    (l : List α) (x : α) :
    collectByKey key (l ++ [x]) = keyUpdate key (collectByKey key l) x := by
  simp [collectByKey, List.foldl_append]

theorem mem_of_mem_collectByKey {α : Type} {key : α → String} {l : List α}
    {x : α} (h : x ∈ collectByKey key l) : x ∈ l := by
  induction l using List.reverseRecOn with
  | nil => simp [collectByKey] at h
  | append_singleton l y ih =>
    rw [collectByKey_append_singleton] at h
    rcases mem_of_mem_keyUpdate h with h1 | h1
    · exact List.mem_append.mpr (Or.inl (ih h1))
    · exact List.mem_append.mpr (Or.inr (List.mem_singleton.mpr h1))

theorem keys_collectByKey_nodup {α : Type} (key : α → String) (l : List α) :
    ((collectByKey key l).map key).Nodup := by
  induction l using List.reverseRecOn with
  | nil => simp [collectByKey]
  | append_singleton l y ih =>
    rw [collectByKey_append_singleton, keys_keyUpdate]
    by_cases h : (collectByKey key l).any (fun z => key z == key y)
    · rw [if_pos h]; exact ih
    · rw [if_neg h]
      refine List.Nodup.append ih (List.nodup_singleton _) ?_
      intro k hk hk'
      rw [List.mem_singleton.mp hk'] at hk
      rcases List.mem_map.mp hk with ⟨z, hz, hzk⟩
      exact h (List.any_eq_true.mpr ⟨z, hz, beq_iff_eq.mpr hzk⟩)

theorem mem_keys_collectByKey {α : Type} {key : α → String} {l : List α}
    {k : String} : k ∈ (collectByKey key l).map key ↔ k ∈ l.map key := by
  induction l using List.reverseRecOn with
  | nil => simp [collectByKey]
  | append_singleton l y ih =>
    rw [collectByKey_append_singleton, keys_keyUpdate]
    by_cases h : (collectByKey key l).any (fun z => key z == key y)
    · rw [if_pos h]
      rcases List.any_eq_true.mp h with ⟨z, hz, hzk⟩
      have hky : key y ∈ (collectByKey key l).map key :=
        (beq_iff_eq.mp hzk) ▸ List.mem_map_of_mem key hz
      simp only [List.map_append, List.map_singleton, List.mem_append,
        List.mem_singleton]
      constructor
      · intro hm; exact Or.inl (ih.mp hm)
      · rintro (hm | rfl)
        · exact ih.mpr hm
        · exact hky
    · rw [if_neg h]
      simp only [List.map_append, List.map_singleton, List.mem_append,
        List.mem_singleton, ih]

theorem containsKey_collectByKey {α : Type} {key : α → String} {l : List α}
    {k : String} :
    containsKey key (collectByKey key l) k = containsKey key l k := by
  have h1 : containsKey key (collectByKey key l) k = true ↔
      k ∈ (collectByKey key l).map key := by
    rw [containsKey_iff]
    simp [List.mem_map, eq_comm]
  have h2 : containsKey key l k = true ↔ k ∈ l.map key := by
    rw [containsKey_iff]
    simp [List.mem_map, eq_comm]
  rw [Bool.eq_iff_iff]
  constructor
  · intro h
    exact h2.mpr (mem_keys_collectByKey.mp (h1.mp h))
  · intro h
    exact h1.mpr (mem_keys_collectByKey.mpr (h2.mp h))

theorem collectByKey_eq_self {α : Type} {key : α → String} {l : List α}
    (hn : (l.map key).Nodup) : collectByKey key l = l := by
  induction l using List.reverseRecOn with
  | nil => simp [collectByKey]
  | append_singleton l y ih =>
    rw [List.map_append, List.map_singleton] at hn
    have hnl : (l.map key).Nodup := hn.of_append_left
    rw [collectByKey_append_singleton, ih hnl]
    have hky : key y ∉ l.map key := by
      intro hk
      exact (List.disjoint_of_nodup_append hn) hk (List.mem_singleton.mpr rfl)
    unfold keyUpdate
    rw [if_neg ?_]
    intro hany
    rcases List.any_eq_true.mp hany with ⟨z, hz, hzk⟩
    exact hky ((beq_iff_eq.mp hzk) ▸ List.mem_map_of_mem key hz)

theorem collectByKey_absorb {α : Type} {key : α → String} {l extra : List α}
    (hn : (l.map key).Nodup) (hx : ∀ x ∈ extra, x ∈ l) :
    collectByKey key (l ++ extra) = l := by
  induction extra using List.reverseRecOn with
  | nil => rw [List.append_nil]; exact collectByKey_eq_self hn
  | append_singleton ex y ih =>
    have h1 : l ++ (ex ++ [y]) = (l ++ ex) ++ [y] := by
      rw [List.append_assoc]
    rw [h1, collectByKey_append_singleton]
    have h2 : collectByKey key (l ++ ex) = l :=
      ih fun x hxm => hx x (List.mem_append.mpr (Or.inl hxm))
    rw [h2]
    exact keyUpdate_eq_self hn (hx y (List.mem_append.mpr (Or.inr (List.mem_singleton.mpr rfl))))

end Binary

/-! ### Round-trip lemmas for the `EdgeKind` textual codec -/

namespace Ent

theorem parse_format_one (tag : String) (id : String)
    (htag : (':' : Char) ∉ tag.data) (hid : (':' : Char) ∉ id.data) :
    (splitOnChar ':' ((tag ++ ":") ++ id).data).map String.mk = [tag, id] := by
  rw [String.data_append, String.data_append]
  rw [show ((":".data : List Char)) = [':'] from rfl]
  rw [splitOnChar_two _ _ htag hid]
  simp [List.map_cons]

theorem parse_format_two (tag : String) (a b : String)
    (htag : (':' : Char) ∉ tag.data) (ha : (':' : Char) ∉ a.data)
    (hb : (':' : Char) ∉ b.data) :
    (splitOnChar ':' ((((tag ++ ":") ++ a) ++ ":") ++ b).data).map String.mk =
      [tag, a, b] := by
  rw [String.data_append, String.data_append, String.data_append,
    String.data_append]
  rw [show ((":".data : List Char)) = [':'] from rfl]
  rw [splitOnChar_three _ _ _ htag ha hb]
  simp [List.map_cons]

end Ent

/-- C4 (counterexample): the round-trip fails as universally stated, because
an identifier containing the `':'` delimiter is re-split on parsing: for
`k = User { id := "a:b" }`, `format k = "user:a:b"` parses as a three-part
encoding and is rejected, so `parse (format k)` is not `Ok k`. -/
theorem C4_counterexample :
    Ent.EdgeKind.parse (Ent.EdgeKind.format (.user "a:b")) ≠
      Except.ok (Ent.EdgeKind.user "a:b") := by
  have h : Ent.EdgeKind.parse (Ent.EdgeKind.format (.user "a:b")) =
      Except.error "invalid edge kind: user:a:b" := rfl
  rw [h]
  intro hc
  exact Except.noConfusion hc

open Ent in
/-- C4 (amended): for every node-kind variant `k` whose identifier fields do
not contain the `':'` delimiter, parsing the textual encoding produced by
formatting `k` yields `k` back; and malformed text such as `"user"` (missing
field) or `"bogus:1:2:3"` (unknown tag / wrong field count) is rejected with
the parse error `invalid edge kind: …` rather than mapped to any default
value. -/
theorem C4_parse_format_roundtrip :
    (∀ k : Ent.EdgeKind, k.colonFree →
      Ent.EdgeKind.parse (Ent.EdgeKind.format k) = Except.ok k) ∧
    Ent.EdgeKind.parse "user" = Except.error "invalid edge kind: user" ∧
    Ent.EdgeKind.parse "bogus:1:2:3" =
      Except.error "invalid edge kind: bogus:1:2:3" := by
  refine ⟨fun k hk => ?_, rfl, rfl⟩
  cases k with
  | user id =>
    unfold EdgeKind.format EdgeKind.parse
    rw [show ("user:" : String) = "user" ++ ":" from rfl,
      parse_format_one _ _ (by decide) hk]
    rfl
  | role id =>
    unfold EdgeKind.format EdgeKind.parse
    rw [show ("role:" : String) = "role" ++ ":" from rfl,
      parse_format_one _ _ (by decide) hk]
    rfl
  | badge id =>
    unfold EdgeKind.format EdgeKind.parse
    rw [show ("badge:" : String) = "badge" ++ ":" from rfl,
      parse_format_one _ _ (by decide) hk]
    rfl
  | paint id =>
    unfold EdgeKind.format EdgeKind.parse
    rw [show ("paint:" : String) = "paint" ++ ":" from rfl,
      parse_format_one _ _ (by decide) hk]
    rfl
  | emoteSet id =>
    unfold EdgeKind.format EdgeKind.parse
    rw [show ("emote-set:" : String) = "emote-set" ++ ":" from rfl,
      parse_format_one _ _ (by decide) hk]
    rfl
  | product id =>
    unfold EdgeKind.format EdgeKind.parse
    rw [show ("product:" : String) = "product" ++ ":" from rfl,
      parse_format_one _ _ (by decide) hk]
    rfl
  | giftReward id =>
    unfold EdgeKind.format EdgeKind.parse
    rw [show ("gift-reward:" : String) = "gift-reward" ++ ":" from rfl,
      parse_format_one _ _ (by decide) hk]
    rfl
  | userSubscriptionTimeline stl uid =>
    unfold EdgeKind.format EdgeKind.parse
    rw [show ("user-subscription-timeline:" : String) =
        "user-subscription-timeline" ++ ":" from rfl,
      parse_format_two _ _ _ (by decide) hk.2 hk.1]
    rfl
  | subscriptionTimelinePeriod stl pid =>
    unfold EdgeKind.format EdgeKind.parse
    rw [show ("subscription-timeline-period:" : String) =
        "subscription-timeline-period" ++ ":" from rfl,
      parse_format_two _ _ _ (by decide) hk.1 hk.2]
    rfl

/-- C4 (witness): the round-trip theorem applied at the concrete colon-free
inputs `user:abc123` and `subscription-timeline-period:prod1:period2`. -/
theorem C4_witness :
    Ent.EdgeKind.parse (Ent.EdgeKind.format (.user "abc123")) =
      Except.ok (Ent.EdgeKind.user "abc123") ∧
    Ent.EdgeKind.parse
        (Ent.EdgeKind.format (.subscriptionTimelinePeriod "prod1" "period2")) =
      Except.ok (Ent.EdgeKind.subscriptionTimelinePeriod "prod1" "period2") :=
  ⟨C4_parse_format_roundtrip.1 (.user "abc123") (by decide),
   C4_parse_format_roundtrip.1 (.subscriptionTimelinePeriod "prod1" "period2")
     (by decide)⟩

theorem chunkLensAux_congr (n : Nat) :
    ∀ (fuel k : Nat), k ≤ fuel → chunkLensAux n fuel k = chunkLensAux n k k
  | 0, 0, _ => rfl
  | 0, k + 1, h => by omega
  | fuel + 1, 0, _ => rfl
  | fuel + 1, k + 1, h => by
    simp only [chunkLensAux]
    rw [chunkLensAux_congr n fuel (k - n) (by omega),
      chunkLensAux_congr n k (k - n) (by omega)]

theorem chunkLens_succ (n k : Nat) :
    chunkLens n (k + 1) = min (n + 1) (k + 1) :: chunkLens n (k - n) := by
  show chunkLensAux n (k + 1) (k + 1) = _
  simp only [chunkLensAux]
  rw [chunkLensAux_congr n k (k - n) (by omega)]
  rfl

theorem chunksOf_map_length {α : Type} (n : Nat) (l : List α) :
    (chunksOf n l).map List.length = chunkLens n l.length := by
  generalize hk : l.length = k
  induction k using Nat.strong_induction_on generalizing l with
  | _ k ih =>
    cases l with
    | nil => simp at hk; subst hk; rfl
    | cons x xs =>
      simp only [List.length_cons] at hk
      subst hk
      rw [chunksOf_cons, List.map_cons,
        ih (xs.drop n).length (by simp [List.length_drop]; omega) _ rfl,
        chunkLens_succ]
      simp only [List.length_cons, List.length_take, List.length_drop]
      rw [Nat.succ_min_succ]

theorem length_le_of_mem_chunksOf {α : Type} {n : Nat} {l : List α}
    {c : List α} (hc : c ∈ chunksOf n l) : c.length ≤ n + 1 := by
  generalize hk : l.length = k
  induction k using Nat.strong_induction_on generalizing l with
  | _ k ih =>
    cases l with
    | nil => simp [chunksOf, chunksOfAux] at hc
    | cons x xs =>
      rw [chunksOf_cons] at hc
      rcases List.mem_cons.mp hc with h1 | h1
      · subst h1
        simp only [List.length_cons, List.length_take]
        omega
      · exact ih (xs.drop n).length (by subst hk; simp [List.length_drop]; omega) h1 rfl

/-- C9: `insert_edges` partitions its input batch into consecutive chunks of
1000 edges issued sequentially: every chunk has at most 1000 elements,
concatenating the chunks in order gives back exactly the input batch (order
preserved within and across chunks, every edge sent exactly once), and an
input of 2500 edges produces exactly 3 batches of sizes 1000, 1000, 500. -/
theorem C9_insert_edges_chunking :
    (∀ (α : Type) (l : List α), (Mongo.insertBatches l).flatten = l) ∧
    (∀ (α : Type) (l c : List α), c ∈ Mongo.insertBatches l → c.length ≤ 1000) ∧
    (Mongo.insertBatches (List.range 2500)).map List.length = [1000, 1000, 500] := by
  refine ⟨fun α l => chunksOf_flatten 999 l,
    fun α l c hc => length_le_of_mem_chunksOf hc, ?_⟩
  rw [show Mongo.insertBatches (List.range 2500) =
      chunksOf 999 (List.range 2500) from rfl,
    chunksOf_map_length, List.length_range]
  decide

/-- C9 (witness): the chunking theorem applied to the concrete batch
`[0, 1, 2]`, whose single chunk is the batch itself. -/
theorem C9_witness :
    (([0, 1, 2] : List Nat)).length ≤ 1000 ∧
    (Mongo.insertBatches ([0, 1, 2] : List Nat)).flatten = [0, 1, 2] :=
  ⟨C9_insert_edges_chunking.2.1 Nat [0, 1, 2] [0, 1, 2] (by decide),
   C9_insert_edges_chunking.1 Nat [0, 1, 2]⟩

/-- C6: for every edge, inbound expansion produces exactly one candidate —
the edge's source node — when that source's kind has `has_inbound = true`,
and no candidate otherwise; in particular it never enumerates any of the
edge's destinations (every candidate equals the source). -/
theorem C6_inbound_expansion :
    ∀ (K : Type) (_ : DecidableEq K) (hin hout : K → Bool)
      (e : Common.Edge K) (k : K),
      (k ∈ Common.Direction.edgeNext hin hout Common.Direction.inbound e ↔
        k = e.«from» ∧ hin e.«from» = true) ∧
      (hin e.«from» = true →
        Common.Direction.edgeNext hin hout Common.Direction.inbound e = [e.«from»]) ∧
      (hin e.«from» = false →
        Common.Direction.edgeNext hin hout Common.Direction.inbound e = []) := by
  intro K _ hin hout e k
  unfold Common.Direction.edgeNext
  by_cases h : hin e.«from»
  · simp [h]
  · simp only [Bool.not_eq_true] at h
    simp [h]

/-- C6 (witness): the characterization applied to a concrete edge between
entitlement node kinds (`role` sources have `has_inbound = true`). -/
theorem C6_witness :
    Common.Direction.edgeNext Ent.EdgeKind.hasInbound Ent.EdgeKind.hasOutbound
      Common.Direction.inbound
      { «from» := Ent.EdgeKind.role "r1",
        destinations := [{ «to» := Ent.EdgeKind.badge "b1", active := true }] } =
      [Ent.EdgeKind.role "r1"] :=
  (C6_inbound_expansion Ent.EdgeKind inferInstance Ent.EdgeKind.hasInbound
    Ent.EdgeKind.hasOutbound _ (Ent.EdgeKind.role "r1")).2.1 (by decide)

/-- C10: the `User` node kind is the only kind with `has_inbound = false`,
so for every edge whose source is a `User` node, inbound expansion yields no
candidates — inbound traversal never continues backward through a user. -/
theorem C10_user_inbound_terminal :
    (∀ id : String, Ent.EdgeKind.hasInbound (.user id) = false) ∧
    (∀ k : Ent.EdgeKind, k.hasInbound = false → ∃ id, k = .user id) ∧
    (∀ e : Common.Edge Ent.EdgeKind, (∃ id, e.«from» = .user id) →
      Common.Direction.edgeNext Ent.EdgeKind.hasInbound Ent.EdgeKind.hasOutbound
        Common.Direction.inbound e = []) := by
  refine ⟨fun id => rfl, fun k hk => ?_, fun e he => ?_⟩
  · cases k with
    | user id => exact ⟨id, rfl⟩
    | role id => simp [Ent.EdgeKind.hasInbound] at hk
    | badge id => simp [Ent.EdgeKind.hasInbound] at hk
    | paint id => simp [Ent.EdgeKind.hasInbound] at hk
    | emoteSet id => simp [Ent.EdgeKind.hasInbound] at hk
    | product id => simp [Ent.EdgeKind.hasInbound] at hk
    | giftReward id => simp [Ent.EdgeKind.hasInbound] at hk
    | userSubscriptionTimeline a b => simp [Ent.EdgeKind.hasInbound] at hk
    | subscriptionTimelinePeriod a b => simp [Ent.EdgeKind.hasInbound] at hk
  · obtain ⟨id, hid⟩ := he
    unfold Common.Direction.edgeNext
    rw [hid]
    rfl

/-- C10 (witness): a user-sourced edge produces no inbound candidates, via
the theorem at the concrete source `user:u1`. -/
theorem C10_witness :
    Common.Direction.edgeNext Ent.EdgeKind.hasInbound Ent.EdgeKind.hasOutbound
      Common.Direction.inbound
      { «from» := Ent.EdgeKind.user "u1",
        destinations := [{ «to» := Ent.EdgeKind.role "r1", active := true }] } = [] :=
  C10_user_inbound_terminal.2.2 _ ⟨"u1", rfl⟩

namespace Common

variable {K : Type} [DecidableEq K]

theorem visitFold_eq (cands : List K) (p : List K × Finset K) :
    cands.foldl
      (fun (p : List K × Finset K) k =>
        let (ok, s') := visitedFilter p.2 k
        (if ok then p.1 ++ [k] else p.1, s')) p =
    cands.foldl visitStep p := by
  induction cands generalizing p with
  | nil => rfl
  | cons k rest ih =>
    simp only [List.foldl_cons]
    rw [ih]
    congr 1
    unfold visitStep visitedFilter
    by_cases h : k ∉ p.2
    · rw [if_pos h, if_pos (by simpa using h)]
    · rw [if_neg h, if_neg (by simpa using h)]

theorem traversalLoop_nil (g : List (Edge K)) (hin hout : K → Bool)
    (d : Direction) {σ : Type} (f : σ → K → Bool × σ) (fuel : Nat) (s : σ)
    (acc : List (Edge K)) :
    traversalLoop g hin hout d f fuel s [] acc = some (acc, s) := by
  cases fuel <;> rfl

theorem traversalLoop_succ (g : List (Edge K)) (hin hout : K → Bool)
    (d : Direction) (fuel : Nat) (vis : Finset K) (frontier : List K)
    (acc : List (Edge K)) (h : frontier ≠ []) :
    traversalLoop g hin hout d visitedFilter (fuel + 1) vis frontier acc =
      traversalLoop g hin hout d visitedFilter fuel
        (((fetchEdges g d frontier).flatMap
            (Direction.edgeNext hin hout d)).foldl visitStep ([], vis)).2
        (((fetchEdges g d frontier).flatMap
            (Direction.edgeNext hin hout d)).foldl visitStep ([], vis)).1
        (acc ++ fetchEdges g d frontier) := by
  rw [traversalLoop]
  rw [if_neg (by simpa using h)]
  simp only [visitFold_eq]

end Common

namespace Common

variable {K : Type} [DecidableEq K]

theorem visitFold_spec (cands : List K) :
    ∀ (fr : List K) (vis : Finset K),
      (∀ x, x ∈ (cands.foldl visitStep (fr, vis)).2 ↔ x ∈ vis ∨ x ∈ cands) ∧
      (∃ nw, (cands.foldl visitStep (fr, vis)).1 = fr ++ nw ∧ nw.Nodup ∧
        (∀ x ∈ nw, x ∈ cands ∧ x ∉ vis) ∧
        (∀ x ∈ cands, x ∉ vis → x ∈ nw)) := by
  induction cands with
  | nil =>
    intro fr vis
    refine ⟨fun x => by simp, [], by simp, List.nodup_nil, by simp, by simp⟩
  | cons k rest ih =>
    intro fr vis
    by_cases h : k ∉ vis
    · have hstep : visitStep (fr, vis) k = (fr ++ [k], insert k vis) := by
        unfold visitStep
        rw [if_pos h]
      obtain ⟨hmem, nw, hnw, hnd, hprop, hcompl⟩ := ih (fr ++ [k]) (insert k vis)
      refine ⟨fun x => ?_, k :: nw, ?_, ?_, ?_, ?_⟩
      · rw [List.foldl_cons, hstep, hmem x]
        simp only [Finset.mem_insert, List.mem_cons]
        tauto
      · rw [List.foldl_cons, hstep, hnw, List.append_assoc]
        rfl
      · refine List.Nodup.cons ?_ hnd
        intro hk
        exact ((hprop k hk).2) (Finset.mem_insert_self k vis)
      · intro x hx
        rcases List.mem_cons.mp hx with rfl | hx'
        · exact ⟨List.mem_cons_self x rest, h⟩
        · obtain ⟨h1, h2⟩ := hprop x hx'
          exact ⟨List.mem_cons_of_mem k h1,
            fun hxv => h2 (Finset.mem_insert_of_mem hxv)⟩
      · intro x hx hxv
        rcases List.mem_cons.mp hx with rfl | hx'
        · exact List.mem_cons_self x nw
        · by_cases hxk : x = k
          · subst hxk
            exact List.mem_cons_self x nw
          · refine List.mem_cons_of_mem k (hcompl x hx' ?_)
            intro hxi
            rcases Finset.mem_insert.mp hxi with h1 | h1
            · exact hxk h1
            · exact hxv h1
    · rw [Classical.not_not] at h
      have hstep : visitStep (fr, vis) k = (fr, vis) := by
        unfold visitStep
        rw [if_neg (by simpa using h), Finset.insert_eq_self.mpr h]
      obtain ⟨hmem, nw, hnw, hnd, hprop, hcompl⟩ := ih fr vis
      refine ⟨fun x => ?_, nw, ?_, hnd, ?_, ?_⟩
      · rw [List.foldl_cons, hstep, hmem x]
        simp only [List.mem_cons]
        constructor
        · rintro (h1 | h1)
          · exact Or.inl h1
          · exact Or.inr (Or.inr h1)
        · rintro (h1 | rfl | h1)
          · exact Or.inl h1
          · exact Or.inl h
          · exact Or.inr h1
      · rw [List.foldl_cons, hstep, hnw]
      · intro x hx
        obtain ⟨h1, h2⟩ := hprop x hx
        exact ⟨List.mem_cons_of_mem k h1, h2⟩
      · intro x hx hxv
        rcases List.mem_cons.mp hx with rfl | hx'
        · exact absurd h hxv
        · exact hcompl x hx' hxv

theorem mem_fetchEdges_outbound {g : List (Edge K)} {ns : List K} {e : Edge K} :
    e ∈ fetchEdges g Direction.outbound ns ↔ e ∈ g ∧ e.«from» ∈ ns := by
  unfold fetchEdges
  rw [List.mem_flatMap]
  constructor
  · rintro ⟨c, hc, he⟩
    rcases List.mem_filter.mp he with ⟨h1, h2⟩
    exact ⟨h1, mem_chunksOf_flatten hc (by simpa using h2)⟩
  · rintro ⟨h1, h2⟩
    have h3 : e.«from» ∈ (chunksOf 999 ns).flatten := by
      rw [chunksOf_flatten]
      exact h2
    rcases List.mem_flatten.mp h3 with ⟨c, hc, hec⟩
    exact ⟨c, hc, List.mem_filter.mpr ⟨h1, by simpa using hec⟩⟩

theorem mem_fetchEdges_inbound {g : List (Edge K)} {ns : List K} {e : Edge K}
    (h : e ∈ fetchEdges g Direction.inbound ns) :
    ∃ e₀ ∈ g, e = { «from» := e₀.«from», destinations := [] } ∧
      ∃ dest ∈ e₀.destinations, dest.active = true ∧ dest.«to» ∈ ns := by
  unfold fetchEdges at h
  rcases List.mem_flatMap.mp h with ⟨c, hc, he⟩
  rcases List.mem_map.mp he with ⟨e₀, he₀, rfl⟩
  rcases List.mem_filter.mp he₀ with ⟨h1, h2⟩
  rcases List.any_eq_true.mp h2 with ⟨dest, hd, hda⟩
  simp only [Bool.and_eq_true] at hda
  obtain ⟨ha, hm⟩ := hda
  exact ⟨e₀, h1, rfl, dest, hd, ha, mem_chunksOf_flatten hc (of_decide_eq_true hm)⟩

theorem fetchEdges_sub_nodeFinset {g : List (Edge K)} {d : Direction}
    {ns : List K} {hin hout : K → Bool} {k : K}
    (hk : k ∈ (fetchEdges g d ns).flatMap (Direction.edgeNext hin hout d)) :
    k ∈ nodeFinset g := by
  rcases List.mem_flatMap.mp hk with ⟨e, he, hke⟩
  cases d with
  | inbound =>
    rcases mem_fetchEdges_inbound he with ⟨e₀, he₀, rfl, -⟩
    unfold Direction.edgeNext at hke
    by_cases hi : hin e₀.«from»
    · rw [if_pos hi] at hke
      rcases List.mem_singleton.mp hke with rfl
      show e₀.«from» ∈ nodeFinset g
      exact Finset.mem_union_left _
        (List.mem_toFinset.mpr (List.mem_map_of_mem _ he₀))
    · rw [if_neg hi] at hke
      simp at hke
  | outbound =>
    rcases mem_fetchEdges_outbound.mp he with ⟨heg, -⟩
    unfold Direction.edgeNext at hke
    rcases List.mem_map.mp hke with ⟨dest, hd, rfl⟩
    rcases List.mem_filter.mp hd with ⟨hd1, -⟩
    refine Finset.mem_union_right _ (List.mem_toFinset.mpr ?_)
    exact List.mem_flatMap.mpr ⟨e, heg, List.mem_map_of_mem _ hd1⟩

theorem fetchEdges_outbound_nodup {g : List (Edge K)} {ns : List K}
    (hg : (g.map (·.«from»)).Nodup) (hns : ns.Nodup) :
    (fetchEdges g Direction.outbound ns).Nodup := by
  have hgn : g.Nodup := hg.of_map
  have hchunks : ((chunksOf 999 ns).flatten).Nodup := by
    rw [chunksOf_flatten]
    exact hns
  rw [List.nodup_flatten] at hchunks
  unfold fetchEdges
  rw [List.nodup_flatMap]
  constructor
  · intro c hc
    exact hgn.filter _
  · refine List.Pairwise.imp_of_mem ?_ hchunks.2
    intro c₁ c₂ hc₁ hc₂ hdisj
    intro e he₁ he₂
    rcases List.mem_filter.mp he₁ with ⟨-, hm₁⟩
    rcases List.mem_filter.mp he₂ with ⟨-, hm₂⟩
    exact hdisj (by simpa using hm₁) (by simpa using hm₂)

end Common

namespace Common

variable {K : Type} [DecidableEq K]

theorem traversalLoop_terminates (g : List (Edge K)) (hin hout : K → Bool)
    (d : Direction) (S : Finset K) (hS : nodeFinset g ⊆ S) :
    ∀ (fuel : Nat) (vis : Finset K) (frontier : List K) (acc : List (Edge K)),
      vis ⊆ S → S.card - vis.card + 1 ≤ fuel →
      (traversalLoop g hin hout d visitedFilter fuel vis frontier acc).isSome := by
  intro fuel
  induction fuel with
  | zero => intro vis frontier acc hv hf; omega
  | succ fuel ih =>
    intro vis frontier acc hv hf
    by_cases hfr : frontier = []
    · subst hfr
      rw [traversalLoop_nil]
      rfl
    · rw [traversalLoop_succ _ _ _ _ _ _ _ _ hfr]
      obtain ⟨hmem, nw, hnw, hnd, hprop, hcompl⟩ :=
        visitFold_spec ((fetchEdges g d frontier).flatMap
          (Direction.edgeNext hin hout d)) [] vis
      rw [hnw, List.nil_append]
      have hsub' : (((fetchEdges g d frontier).flatMap
          (Direction.edgeNext hin hout d)).foldl visitStep ([], vis)).2 ⊆ S := by
        intro x hx
        rcases (hmem x).mp hx with h1 | h1
        · exact hv h1
        · exact hS (fetchEdges_sub_nodeFinset h1)
      cases hnwe : nw with
      | nil =>
        rw [hnwe] at hnw
        rw [traversalLoop_nil]
        rfl
      | cons y ys =>
        refine ih _ _ _ hsub' ?_
        have hy : y ∈ nw := by rw [hnwe]; exact List.mem_cons_self y ys
        obtain ⟨hyc, hyv⟩ := hprop y hy
        have hvsub : vis ⊆ (((fetchEdges g d frontier).flatMap
            (Direction.edgeNext hin hout d)).foldl visitStep ([], vis)).2 :=
          fun x hx => (hmem x).mpr (Or.inl hx)
        have hyin : y ∈ (((fetchEdges g d frontier).flatMap
            (Direction.edgeNext hin hout d)).foldl visitStep ([], vis)).2 :=
          (hmem y).mpr (Or.inr hyc)
        have hlt : vis.card < (((fetchEdges g d frontier).flatMap
            (Direction.edgeNext hin hout d)).foldl visitStep ([], vis)).2.card := by
          refine Finset.card_lt_card ?_
          rw [Finset.ssubset_iff_of_subset hvsub]
          exact ⟨y, hyin, hyv⟩
        have hcardS : (((fetchEdges g d frontier).flatMap
            (Direction.edgeNext hin hout d)).foldl visitStep ([], vis)).2.card ≤ S.card :=
          Finset.card_le_card hsub'
        omega

end Common

namespace Common

variable {K : Type} [DecidableEq K]

theorem traversalLoop_outbound_spec (g : List (Edge K)) (hin hout : K → Bool) :
    ∀ (fuel : Nat) (vis : Finset K) (frontier : List K)
      (acc res : List (Edge K)) (visF : Finset K),
      (∀ x ∈ frontier, x ∈ vis) →
      (∀ e, e ∈ acc ↔ e ∈ g ∧ e.«from» ∈ vis ∧ e.«from» ∉ frontier) →
      traversalLoop g hin hout Direction.outbound visitedFilter fuel vis frontier acc =
        some (res, visF) →
      (∀ e, e ∈ res ↔ e ∈ g ∧ e.«from» ∈ visF) ∧ vis ⊆ visF ∧
      (∀ x ∈ visF, x ∈ vis ∨
        ∃ e ∈ res, x ∈ Direction.edgeNext hin hout Direction.outbound e) := by
  intro fuel
  induction fuel with
  | zero =>
    intro vis frontier acc res visF hfv hacc hrun
    by_cases hfr : frontier = []
    · subst hfr
      rw [traversalLoop_nil] at hrun
      have hp : acc = res ∧ vis = visF := by simpa using hrun
      obtain ⟨rfl, rfl⟩ := hp
      refine ⟨fun e => ?_, Finset.Subset.refl _, fun x hx => Or.inl hx⟩
      simpa using hacc e
    · rw [traversalLoop, if_neg (by simpa using hfr)] at hrun
      exact absurd hrun (by simp)
  | succ fuel ih =>
    intro vis frontier acc res visF hfv hacc hrun
    by_cases hfr : frontier = []
    · subst hfr
      rw [traversalLoop_nil] at hrun
      have hp : acc = res ∧ vis = visF := by simpa using hrun
      obtain ⟨rfl, rfl⟩ := hp
      refine ⟨fun e => ?_, Finset.Subset.refl _, fun x hx => Or.inl hx⟩
      simpa using hacc e
    · rw [traversalLoop_succ _ _ _ _ _ _ _ _ hfr] at hrun
      obtain ⟨hmem, nw, hnw, hnd, hprop, hcompl⟩ :=
        visitFold_spec ((fetchEdges g Direction.outbound frontier).flatMap
          (Direction.edgeNext hin hout Direction.outbound)) [] vis
      rw [hnw, List.nil_append] at hrun
      have hfv' : ∀ x ∈ nw,
          x ∈ (((fetchEdges g Direction.outbound frontier).flatMap
            (Direction.edgeNext hin hout Direction.outbound)).foldl
              visitStep ([], vis)).2 :=
        fun x hx => (hmem x).mpr (Or.inr (hprop x hx).1)
      have hacc' : ∀ e, e ∈ acc ++ fetchEdges g Direction.outbound frontier ↔
          e ∈ g ∧ e.«from» ∈ (((fetchEdges g Direction.outbound frontier).flatMap
            (Direction.edgeNext hin hout Direction.outbound)).foldl
              visitStep ([], vis)).2 ∧ e.«from» ∉ nw := by
        intro e
        constructor
        · intro he
          rcases List.mem_append.mp he with h1 | h1
          · obtain ⟨heg, hev, hef⟩ := (hacc e).mp h1
            refine ⟨heg, (hmem _).mpr (Or.inl hev), fun hnwm => ?_⟩
            exact (hprop _ hnwm).2 hev
          · obtain ⟨heg, hefr⟩ := mem_fetchEdges_outbound.mp h1
            have hev : e.«from» ∈ vis := hfv _ hefr
            refine ⟨heg, (hmem _).mpr (Or.inl hev), fun hnwm => ?_⟩
            exact (hprop _ hnwm).2 hev
        · rintro ⟨heg, hev', hnotnw⟩
          rcases (hmem _).mp hev' with hv | hcand
          · by_cases hif : e.«from» ∈ frontier
            · exact List.mem_append.mpr
                (Or.inr (mem_fetchEdges_outbound.mpr ⟨heg, hif⟩))
            · exact List.mem_append.mpr (Or.inl ((hacc e).mpr ⟨heg, hv, hif⟩))
          · by_cases hv : e.«from» ∈ vis
            · by_cases hif : e.«from» ∈ frontier
              · exact List.mem_append.mpr
                  (Or.inr (mem_fetchEdges_outbound.mpr ⟨heg, hif⟩))
              · exact List.mem_append.mpr (Or.inl ((hacc e).mpr ⟨heg, hv, hif⟩))
            · exact absurd (hcompl _ hcand hv) hnotnw
      obtain ⟨hres, hsub, horig⟩ := ih _ _ _ _ _ hfv' hacc' hrun
      refine ⟨hres, ?_, ?_⟩
      · exact fun x hx => hsub ((hmem x).mpr (Or.inl hx))
      · intro x hx
        rcases horig x hx with h1 | h1
        · rcases (hmem x).mp h1 with h2 | h2
          · exact Or.inl h2
          · rcases List.mem_flatMap.mp h2 with ⟨e, he, hxe⟩
            obtain ⟨heg, hefr⟩ := mem_fetchEdges_outbound.mp he
            refine Or.inr ⟨e, ?_, hxe⟩
            exact (hres e).mpr ⟨heg, hsub ((hmem _).mpr (Or.inl (hfv _ hefr)))⟩
        · exact Or.inr h1

end Common

namespace Common

variable {K : Type} [DecidableEq K]

theorem traversalLoop_outbound_nodup (g : List (Edge K)) (hin hout : K → Bool)
    (hg : (g.map (·.«from»)).Nodup) :
    ∀ (fuel : Nat) (vis : Finset K) (frontier : List K)
      (acc res : List (Edge K)) (visF : Finset K),
      frontier.Nodup →
      (∀ x ∈ frontier, x ∈ vis) →
      acc.Nodup →
      (∀ e ∈ acc, e.«from» ∈ vis ∧ e.«from» ∉ frontier) →
      traversalLoop g hin hout Direction.outbound visitedFilter fuel vis frontier acc =
        some (res, visF) →
      res.Nodup := by
  intro fuel
  induction fuel with
  | zero =>
    intro vis frontier acc res visF hfn hfv han hap hrun
    by_cases hfr : frontier = []
    · subst hfr
      rw [traversalLoop_nil] at hrun
      have hp : acc = res ∧ vis = visF := by simpa using hrun
      obtain ⟨rfl, -⟩ := hp
      exact han
    · rw [traversalLoop, if_neg (by simpa using hfr)] at hrun
      exact absurd hrun (by simp)
  | succ fuel ih =>
    intro vis frontier acc res visF hfn hfv han hap hrun
    by_cases hfr : frontier = []
    · subst hfr
      rw [traversalLoop_nil] at hrun
      have hp : acc = res ∧ vis = visF := by simpa using hrun
      obtain ⟨rfl, -⟩ := hp
      exact han
    · rw [traversalLoop_succ _ _ _ _ _ _ _ _ hfr] at hrun
      obtain ⟨hmem, nw, hnw, hnd, hprop, hcompl⟩ :=
        visitFold_spec ((fetchEdges g Direction.outbound frontier).flatMap
          (Direction.edgeNext hin hout Direction.outbound)) [] vis
      rw [hnw, List.nil_append] at hrun
      refine ih _ _ _ _ _ hnd ?_ ?_ ?_ hrun
      · exact fun x hx => (hmem x).mpr (Or.inr (hprop x hx).1)
      · refine List.Nodup.append han (fetchEdges_outbound_nodup hg hfn) ?_
        intro e he hef
        obtain ⟨-, hfr'⟩ := mem_fetchEdges_outbound.mp hef
        exact (hap e he).2 hfr'
      · intro e he
        rcases List.mem_append.mp he with h1 | h1
        · obtain ⟨hev, hef⟩ := hap e h1
          exact ⟨(hmem _).mpr (Or.inl hev), fun hnwm => (hprop _ hnwm).2 hev⟩
        · obtain ⟨-, hefr⟩ := mem_fetchEdges_outbound.mp h1
          have hev : e.«from» ∈ vis := hfv _ hefr
          exact ⟨(hmem _).mpr (Or.inl hev), fun hnwm => (hprop _ hnwm).2 hev⟩

end Common


namespace Common

variable {K : Type} [DecidableEq K]

theorem traversal_eq_loop (g : List (Edge K)) (hin hout : K → Bool)
    (d : Direction) (fuel : Nat) (start : K) :
    traversal g hin hout d fuel start =
      traversalLoop g hin hout d visitedFilter fuel {start} [start] [] := by
  unfold traversal traversalFilter visitedFilter
  simp

end Common

/-- C2 (counterexample): inbound traversal can return the same stored edge
more than once.  On `inboundDupGraph`, inbound traversal from `badge:a`
fetches the record with source `role:s` at level 0 (via its destination
`badge:a`) and again at level 1 (via its destination `role:b`, discovered
through the record `role:b`), so the result list holds that edge twice. -/
theorem C2_counterexample :
    (Common.traversal inboundDupGraph Ent.EdgeKind.hasInbound
        Ent.EdgeKind.hasOutbound Common.Direction.inbound 5
        (.badge "a")).map Prod.fst =
      some [({ «from» := .role "s", destinations := [] } : Common.Edge Ent.EdgeKind),
            { «from» := .role "b", destinations := [] },
            { «from» := .role "s", destinations := [] }] ∧
    ¬ List.Nodup
        [({ «from» := .role "s", destinations := [] } : Common.Edge Ent.EdgeKind),
         { «from» := .role "b", destinations := [] },
         { «from» := .role "s", destinations := [] }] :=
  ⟨by decide, by decide⟩

/-- C2 (amended): for the outbound direction, over a store whose records have
pairwise-distinct sources (the `_id` primary key of the edge collection),
the edge list returned by `traversal` — that is, `traversal_filter` with the
default visited-set predicate — contains no duplicate edges.  (In the inbound
direction an edge whose active destinations are reached at different levels
is returned once per such level, so duplicates can appear; see the
counterexample.) -/
theorem C2_outbound_no_duplicates :
    ∀ (K : Type) (_ : DecidableEq K) (hin hout : K → Bool)
      (g : List (Common.Edge K)), (g.map (·.«from»)).Nodup →
      ∀ (start : K) (fuel : Nat) (res : List (Common.Edge K)) (visF : Finset K),
        Common.traversal g hin hout Common.Direction.outbound fuel start =
          some (res, visF) →
        res.Nodup := by
  intro K _ hin hout g hg start fuel res visF hrun
  rw [Common.traversal_eq_loop] at hrun
  refine Common.traversalLoop_outbound_nodup g hin hout hg fuel {start} [start]
    [] res visF (List.nodup_singleton start) ?_ List.nodup_nil (by simp) hrun
  intro x hx
  rw [List.mem_singleton.mp hx]
  exact Finset.mem_singleton_self start

/-- C2 (witness): the no-duplicates theorem applied to the concrete cyclic
store `cycleGraph`, whose sources are pairwise distinct. -/
theorem C2_witness :
    ((Common.traversal cycleGraph Ent.EdgeKind.hasInbound
        Ent.EdgeKind.hasOutbound Common.Direction.outbound 5
        (.role "a")).get (by decide)).1.Nodup := by
  have hs : (Common.traversal cycleGraph Ent.EdgeKind.hasInbound
      Ent.EdgeKind.hasOutbound Common.Direction.outbound 5
      (.role "a")).isSome = true := by decide
  exact C2_outbound_no_duplicates Ent.EdgeKind inferInstance Ent.EdgeKind.hasInbound
    Ent.EdgeKind.hasOutbound cycleGraph (by decide) (.role "a") 5 _ _
    (Option.some_get hs).symm

/-- C5: outbound expansion of an edge yields exactly the destination nodes
whose `active` flag is true and whose kind has `has_outbound = true`; a
destination failing either test never reaches the frontier (every visited
node other than the start lies in the outbound expansion of some returned
edge); and every fetched edge appears in the returned edge set with its full
destination list — the result is exactly the stored records whose source was
visited, unmodified. -/
theorem C5_outbound_expansion :
    (∀ (K : Type) (_ : DecidableEq K) (hin hout : K → Bool)
      (e : Common.Edge K) (k : K),
      k ∈ Common.Direction.edgeNext hin hout Common.Direction.outbound e ↔
        ∃ dest ∈ e.destinations,
          dest.«to» = k ∧ dest.active = true ∧ hout k = true) ∧
    (∀ (K : Type) (_ : DecidableEq K) (hin hout : K → Bool)
      (g : List (Common.Edge K)) (start : K) (fuel : Nat)
      (res : List (Common.Edge K)) (visF : Finset K),
      Common.traversal g hin hout Common.Direction.outbound fuel start =
        some (res, visF) →
      (∀ e, e ∈ res ↔ e ∈ g ∧ e.«from» ∈ visF) ∧
      (∀ x ∈ visF, x = start ∨
        ∃ e ∈ res,
          x ∈ Common.Direction.edgeNext hin hout Common.Direction.outbound e)) := by
  constructor
  · intro K _ hin hout e k
    unfold Common.Direction.edgeNext
    simp only [List.mem_map, List.mem_filter, Bool.and_eq_true]
    constructor
    · rintro ⟨dest, ⟨hd, ha, ho⟩, rfl⟩
      exact ⟨dest, hd, rfl, ha, ho⟩
    · rintro ⟨dest, hd, rfl, ha, ho⟩
      exact ⟨dest, ⟨hd, ha, ho⟩, rfl⟩
  · intro K _ hin hout g start fuel res visF hrun
    rw [Common.traversal_eq_loop] at hrun
    obtain ⟨hres, hsub, horig⟩ :=
      Common.traversalLoop_outbound_spec g hin hout fuel {start} [start] [] res
        visF (fun x hx => by
          rw [List.mem_singleton.mp hx]
          exact Finset.mem_singleton_self start)
        (by simp) hrun
    refine ⟨hres, fun x hx => ?_⟩
    rcases horig x hx with h1 | h1
    · exact Or.inl (Finset.mem_singleton.mp h1)
    · exact Or.inr h1

/-- C5 (witness): the characterization applied to the concrete store
`cycleGraph` from start node `role:a`: the result is exactly the records
whose source was visited, with full destination lists. -/
theorem C5_witness :
    ∀ e, e ∈ ((Common.traversal cycleGraph Ent.EdgeKind.hasInbound
        Ent.EdgeKind.hasOutbound Common.Direction.outbound 5
        (.role "a")).get (by decide)).1 ↔
      e ∈ cycleGraph ∧
        e.«from» ∈ ((Common.traversal cycleGraph Ent.EdgeKind.hasInbound
          Ent.EdgeKind.hasOutbound Common.Direction.outbound 5
          (.role "a")).get (by decide)).2 := by
  have hs : (Common.traversal cycleGraph Ent.EdgeKind.hasInbound
      Ent.EdgeKind.hasOutbound Common.Direction.outbound 5
      (.role "a")).isSome = true := by decide
  exact (C5_outbound_expansion.2 Ent.EdgeKind inferInstance
    Ent.EdgeKind.hasInbound Ent.EdgeKind.hasOutbound cycleGraph (.role "a") 5 _ _
    (Option.some_get hs).symm).1

/-- C7: traversal with the default visited-set predicate terminates on every
finite store in either direction given fuel `card (nodes ∪ {start})`; and on
the concrete cyclic store A→B, B→{C, A}, outbound traversal from A returns
exactly the two stored records (each once) and has visited exactly the three
nodes A, B, C when the frontier empties — the cycle does not loop. -/
theorem C7_traversal_terminates :
    (∀ (K : Type) (_ : DecidableEq K) (hin hout : K → Bool)
      (g : List (Common.Edge K)) (d : Common.Direction) (start : K),
      (Common.traversal g hin hout d
        ((insert start (Common.nodeFinset g)).card) start).isSome) ∧
    (Common.traversal cycleGraph Ent.EdgeKind.hasInbound Ent.EdgeKind.hasOutbound
        Common.Direction.outbound 5 (.role "a")).map Prod.fst =
      some [({ «from» := .role "a",
               destinations := [{ «to» := .role "b", active := true }] } :
               Common.Edge Ent.EdgeKind),
            { «from» := .role "b",
              destinations := [{ «to» := .role "c", active := true },
                               { «to» := .role "a", active := true }] }] ∧
    (Common.traversal cycleGraph Ent.EdgeKind.hasInbound Ent.EdgeKind.hasOutbound
        Common.Direction.outbound 5 (.role "a")).map
        (fun p => (p.2.card, decide ((Ent.EdgeKind.role "a") ∈ p.2),
                   decide ((Ent.EdgeKind.role "b") ∈ p.2),
                   decide ((Ent.EdgeKind.role "c") ∈ p.2))) =
      some (3, true, true, true) := by
  refine ⟨?_, by decide, by decide⟩
  intro K _ hin hout g d start
  rw [Common.traversal_eq_loop]
  have hstart : start ∈ insert start (Common.nodeFinset g) :=
    Finset.mem_insert_self start _
  refine Common.traversalLoop_terminates g hin hout d
    (insert start (Common.nodeFinset g)) (Finset.subset_insert _ _) _ _ _ _
    ?_ ?_
  · intro x hx
    rw [Finset.mem_singleton.mp hx]
    exact hstart
  · have h1 : (1 : Nat) ≤ (insert start (Common.nodeFinset g)).card :=
      Finset.card_pos.mpr ⟨start, hstart⟩
    simp only [Finset.card_singleton]
    omega

/-- C1 (counterexample): the closure invariant fails as stated, in two ways.
On the empty record set, the roles stage pushes the synthetic legacy badge
edges after the item-validity filter has run, so the synthetic Translator
and Event Coordinator roles reference badges absent from the (empty) closed
item set.  And the groups stage runs no sort/dedup, so a group's surviving
edge list can stay unsorted and duplicated. -/
theorem C1_counterexample :
    (¬ ∀ r ∈ (Binary.transformData emptyBD).roles, ∀ e ∈ r.edges,
        Binary.containsKey Binary.Item.id (Binary.transformData emptyBD).items
          e.id = true) ∧
    ¬ (∀ gr ∈ (Binary.transformData groupDupBD).groups,
        List.Sorted Binary.Edge.le gr.edges ∧ gr.edges.Nodup) :=
  ⟨by decide, by decide⟩

/-- C8 (counterexample): a user holding the legacy admin badge, in a record
set without the admin role record, ends up holding no edge at all — the
in-place rewrite produced a role edge that failed the role-set validity
check and was dropped, so the user does not hold the mapped role edge. -/
theorem C8_counterexample :
    (Binary.transformData c8Bad).users =
      [{ id := "u1", username := "alice", edges := [] }] ∧
    Binary.containsKey Binary.Role.id (Binary.transformData c8Bad).roles
      "6102002eab1aa12bf648cfcd" = false :=
  ⟨by decide, by decide⟩

namespace Binary

theorem transformData_items (d : BinaryData) :
    (transformData d).items = itemsStage d := rfl

theorem transformData_roles (d : BinaryData) :
    (transformData d).roles = rolesStage (itemsStage d) d := rfl

theorem transformData_groups (d : BinaryData) :
    (transformData d).groups =
      (productsGroups (itemsStage d) (rolesStage (itemsStage d) d)
        (groupsStage (itemsStage d) (rolesStage (itemsStage d) d) d) d).2 := rfl

theorem transformData_products (d : BinaryData) :
    (transformData d).products =
      collectByKey Product.id
        (productsGroups (itemsStage d) (rolesStage (itemsStage d) d)
          (groupsStage (itemsStage d) (rolesStage (itemsStage d) d) d) d).1 := rfl

theorem transformData_userProducts (d : BinaryData) :
    (transformData d).userProducts =
      userProductsStage (transformData d).groups (transformData d).products d := rfl

theorem transformData_users (d : BinaryData) :
    (transformData d).users =
      usersStage (itemsStage d) (rolesStage (itemsStage d) d)
        (transformData d).products (transformData d).userProducts d := rfl

theorem mem_badgePushes {rid : String} {e : Edge} (h : e ∈ badgePushes rid) :
    e.kind = EdgeKind.badge ∧ e.active = true ∧ (e.id, rid) ∈ badgeToRoles := by
  unfold badgePushes at h
  rcases List.mem_map.mp h with ⟨p, hp, rfl⟩
  rcases List.mem_filter.mp hp with ⟨hpm, hpr⟩
  refine ⟨rfl, rfl, ?_⟩
  have : p.2 = rid := by simpa using hpr
  rw [show ((p.1, rid) : String × String) = p from by rw [← this]]
  exact hpm

theorem rolesStage_edges {items : List Item} {d : BinaryData} {r : Role}
    (hr : r ∈ rolesStage items d) :
    ∀ e ∈ r.edges, containsKey Item.id items e.id = true ∨
      (e.kind = EdgeKind.badge ∧ e.active = true ∧ (e.id, r.id) ∈ badgeToRoles) := by
  intro e he
  unfold rolesStage at hr
  have hr' := mem_of_mem_collectByKey hr
  rcases List.mem_map.mp hr' with ⟨r₀, hr₀, rfl⟩
  unfold roleProcess at he
  simp only at he
  rw [mem_sortDedup] at he
  rcases List.mem_append.mp he with h1 | h1
  · exact Or.inl (List.mem_filter.mp h1).2
  · exact Or.inr (mem_badgePushes h1)

theorem rolesStage_sorted {items : List Item} {d : BinaryData} {r : Role}
    (hr : r ∈ rolesStage items d) :
    List.Sorted Edge.le r.edges ∧ r.edges.Nodup := by
  unfold rolesStage at hr
  have hr' := mem_of_mem_collectByKey hr
  rcases List.mem_map.mp hr' with ⟨r₀, hr₀, rfl⟩
  exact ⟨sortDedup_sorted _, sortDedup_nodup _⟩

end Binary

theorem foldl_preserves {α β : Type} (P : β → Prop) (f : β → α → β)
    (hf : ∀ b a, P b → P (f b a)) :
    ∀ (l : List α) (b : β), P b → P (l.foldl f b) := by
  intro l
  induction l with
  | nil => intro b hb; exact hb
  | cons a rest ih => intro b hb; exact ih _ (hf b a hb)

namespace Binary

theorem productEdgeStep_groups_shape (items : List Item) (roles : List Role)
    (pid : String) (st : List Edge × List Group) (e : Edge) :
    ((productEdgeStep items roles pid st e).2).map groupShape =
      st.2.map groupShape := by
  unfold productEdgeStep
  cases e.kind with
  | badge => rfl
  | paint => rfl
  | emoteSet => rfl
  | role => rfl
  | product => rfl
  | userProduct => rfl
  | group =>
    simp only [List.map_map]
    refine List.map_congr_left fun gr _ => ?_
    by_cases h : gr.id == e.id
    · simp only [Function.comp, if_pos h]
      rfl
    · simp only [Function.comp, if_neg h]

theorem productEdgeStep_kept (items : List Item) (roles : List Role)
    (pid : String) (st : List Edge × List Group) (e : Edge)
    (hst : ∀ e' ∈ st.1, productEdgeValid items roles e' = true) :
    ∀ e' ∈ (productEdgeStep items roles pid st e).1,
      productEdgeValid items roles e' = true := by
  intro e' he'
  unfold productEdgeStep at he'
  cases hk : e.kind with
  | badge =>
    rw [hk] at he'
    simp only at he'
    by_cases hc : containsKey Item.id items e.id
    · rw [if_pos hc] at he'
      rcases List.mem_append.mp he' with h1 | h1
      · exact hst _ h1
      · rw [List.mem_singleton.mp h1]
        unfold productEdgeValid
        rw [hk]
        exact hc
    · rw [if_neg hc] at he'
      exact hst _ he'
  | paint =>
    rw [hk] at he'
    simp only at he'
    by_cases hc : containsKey Item.id items e.id
    · rw [if_pos hc] at he'
      rcases List.mem_append.mp he' with h1 | h1
      · exact hst _ h1
      · rw [List.mem_singleton.mp h1]
        unfold productEdgeValid
        rw [hk]
        exact hc
    · rw [if_neg hc] at he'
      exact hst _ he'
  | emoteSet =>
    rw [hk] at he'
    simp only at he'
    by_cases hc : containsKey Item.id items e.id
    · rw [if_pos hc] at he'
      rcases List.mem_append.mp he' with h1 | h1
      · exact hst _ h1
      · rw [List.mem_singleton.mp h1]
        unfold productEdgeValid
        rw [hk]
        exact hc
    · rw [if_neg hc] at he'
      exact hst _ he'
  | role =>
    rw [hk] at he'
    simp only at he'
    by_cases hc : containsKey Role.id roles e.id
    · rw [if_pos hc] at he'
      rcases List.mem_append.mp he' with h1 | h1
      · exact hst _ h1
      · rw [List.mem_singleton.mp h1]
        unfold productEdgeValid
        rw [hk]
        exact hc
    · rw [if_neg hc] at he'
      exact hst _ he'
  | product =>
    rw [hk] at he'
    exact hst _ he'
  | userProduct =>
    rw [hk] at he'
    exact hst _ he'
  | group =>
    rw [hk] at he'
    exact hst _ he'

end Binary

namespace Binary

theorem productFold_groups_shape (items : List Item) (roles : List Role)
    (pid : String) (es : List Edge) (st : List Edge × List Group) :
    ((es.foldl (productEdgeStep items roles pid) st).2).map groupShape =
      st.2.map groupShape := by
  induction es generalizing st with
  | nil => rfl
  | cons e rest ih =>
    rw [List.foldl_cons, ih, productEdgeStep_groups_shape]

theorem productFold_kept (items : List Item) (roles : List Role)
    (pid : String) (es : List Edge) (st : List Edge × List Group)
    (hst : ∀ e' ∈ st.1, productEdgeValid items roles e' = true) :
    ∀ e' ∈ (es.foldl (productEdgeStep items roles pid) st).1,
      productEdgeValid items roles e' = true := by
  induction es generalizing st with
  | nil => exact hst
  | cons e rest ih =>
    rw [List.foldl_cons]
    exact ih _ (productEdgeStep_kept items roles pid st e hst)

theorem productsStage_groups_shape (items : List Item) (roles : List Role)
    (groups : List Group) (ps : List Product) :
    ((productsStage items roles groups ps).2).map groupShape =
      groups.map groupShape := by
  unfold productsStage
  refine foldl_preserves
    (fun (st : List Product × List Group) =>
      st.2.map groupShape = groups.map groupShape) _ ?_ ps ([], groups) rfl
  intro st p hst
  simp only
  rw [productFold_groups_shape]
  exact hst

theorem productsStage_products (items : List Item) (roles : List Role)
    (groups : List Group) (ps : List Product) :
    ∀ p ∈ (productsStage items roles groups ps).1,
      (∀ e ∈ p.edges, productEdgeValid items roles e = true) ∧
      List.Sorted Edge.le p.edges ∧ p.edges.Nodup := by
  unfold productsStage
  refine foldl_preserves
    (fun (st : List Product × List Group) => ∀ p ∈ st.1,
      (∀ e ∈ p.edges, productEdgeValid items roles e = true) ∧
      List.Sorted Edge.le p.edges ∧ p.edges.Nodup) _ ?_ ps ([], groups)
    (by simp)
  intro st p hst
  intro p' hp'
  simp only at hp'
  rcases List.mem_append.mp hp' with h1 | h1
  · exact hst _ h1
  · rw [List.mem_singleton.mp h1]
    refine ⟨fun e he => ?_, sortDedup_sorted _, sortDedup_nodup _⟩
    simp only at he
    rw [mem_sortDedup] at he
    exact productFold_kept items roles p.id p.edges ([], st.2) (by simp) e he

end Binary

namespace Binary

theorem groupsStage_edges {items : List Item} {roles : List Role}
    {d : BinaryData} {gr : Group} (h : gr ∈ groupsStage items roles d) :
    ∀ e ∈ gr.edges, groupEdgeValid items roles e = true := by
  intro e he
  unfold groupsStage at h
  have h' := mem_of_mem_collectByKey h
  rcases List.mem_map.mp h' with ⟨gr₀, hg₀, rfl⟩
  unfold groupProcess at he
  simp only at he
  exact (List.mem_filter.mp he).2

theorem mem_map_shape {β γ : Type} {sh : β → γ} {l₁ l₂ : List β}
    (h : l₁.map sh = l₂.map sh) {x : β} (hx : x ∈ l₁) :
    ∃ y ∈ l₂, sh y = sh x := by
  have hsx : sh x ∈ l₂.map sh := by
    rw [← h]
    exact List.mem_map_of_mem sh hx
  rcases List.mem_map.mp hsx with ⟨y, hy, hyx⟩
  exact ⟨y, hy, hyx⟩

theorem transformGroups_edges {d : BinaryData} {gr : Group}
    (h : gr ∈ (transformData d).groups) :
    ∀ e ∈ gr.edges,
      groupEdgeValid (transformData d).items (transformData d).roles e = true := by
  intro e he
  rw [transformData_groups] at h
  unfold productsGroups at h
  obtain ⟨gr₀, hg₀, hsh⟩ := mem_map_shape (productsStage_groups_shape _ _ _ _) h
  unfold groupShape at hsh
  have hedges : gr₀.edges = gr.edges := congrArg Prod.snd hsh
  rw [transformData_items, transformData_roles]
  exact groupsStage_edges hg₀ e (hedges ▸ he)

theorem userProductsStage_ids (groups : List Group) (products : List Product)
    (d : BinaryData) :
    (userProductsStage groups products d).map UserProduct.id =
      (collectByKey UserProduct.id d.userProducts).map UserProduct.id := by
  unfold userProductsStage
  rw [List.map_map]
  rfl

theorem userProductsStage_edges {groups : List Group} {products : List Product}
    {d : BinaryData} {up : UserProduct} (h : up ∈ userProductsStage groups products d) :
    (∀ e ∈ up.edges,
      upEdgeValid groups products
        ((userProductsStage groups products d).map UserProduct.id) e = true) ∧
    List.Sorted Edge.le up.edges ∧ up.edges.Nodup := by
  rw [userProductsStage_ids]
  unfold userProductsStage at h
  rcases List.mem_map.mp h with ⟨up₀, hup₀, rfl⟩
  refine ⟨fun e he => ?_, sortDedup_sorted _, sortDedup_nodup _⟩
  simp only at he
  rw [mem_sortDedup] at he
  exact (List.mem_filter.mp he).2

theorem usersStage_edges {items : List Item} {roles : List Role}
    {products : List Product} {userProducts : List UserProduct}
    {d : BinaryData} {u : User}
    (h : u ∈ usersStage items roles products userProducts d) :
    (∀ e ∈ u.edges, userEdgeValid items roles products userProducts e = true) ∧
    List.Sorted Edge.le u.edges ∧ u.edges.Nodup := by
  unfold usersStage at h
  have h' := mem_of_mem_collectByKey h
  rcases List.mem_map.mp h' with ⟨u₀, hu₀, rfl⟩
  unfold userProcess
  refine ⟨fun e he => ?_, sortDedup_sorted _, sortDedup_nodup _⟩
  simp only at he
  rw [mem_sortDedup] at he
  exact (List.mem_filter.mp he).2

end Binary

open Binary in
/-- C1 (amended): after `transform_data`, every surviving edge resolves
against the corresponding closed set — groups' and products' edges against
the closed item/role sets, user-products' edges against the closed
group/product/user-product sets, users' edges against the closed
role/item/product/user-product sets — and roles' edges resolve against the
closed item set except for the synthetic legacy badge edges of the remap
table, which are pushed after the item-validity filter and may dangle.  The
edge lists of roles, products, user-products and users are sorted and
deduplicated; group edge lists are passed through unsorted and undeduped. -/
theorem C1_transform_closure :
    ∀ d : Binary.BinaryData,
      (∀ r ∈ (transformData d).roles, ∀ e ∈ r.edges,
        containsKey Item.id (transformData d).items e.id = true ∨
        (e.kind = EdgeKind.badge ∧ e.active = true ∧
          (e.id, r.id) ∈ badgeToRoles)) ∧
      (∀ gr ∈ (transformData d).groups, ∀ e ∈ gr.edges,
        groupEdgeValid (transformData d).items (transformData d).roles e = true) ∧
      (∀ p ∈ (transformData d).products, ∀ e ∈ p.edges,
        productEdgeValid (transformData d).items (transformData d).roles e = true) ∧
      (∀ up ∈ (transformData d).userProducts, ∀ e ∈ up.edges,
        upEdgeValid (transformData d).groups (transformData d).products
          ((transformData d).userProducts.map UserProduct.id) e = true) ∧
      (∀ u ∈ (transformData d).users, ∀ e ∈ u.edges,
        userEdgeValid (transformData d).items (transformData d).roles
          (transformData d).products (transformData d).userProducts e = true) ∧
      (∀ r ∈ (transformData d).roles,
        List.Sorted Edge.le r.edges ∧ r.edges.Nodup) ∧
      (∀ p ∈ (transformData d).products,
        List.Sorted Edge.le p.edges ∧ p.edges.Nodup) ∧
      (∀ up ∈ (transformData d).userProducts,
        List.Sorted Edge.le up.edges ∧ up.edges.Nodup) ∧
      (∀ u ∈ (transformData d).users,
        List.Sorted Edge.le u.edges ∧ u.edges.Nodup) := by
  intro d
  refine ⟨?_, ?_, ?_, ?_, ?_, ?_, ?_, ?_, ?_⟩
  · intro r hr e he
    rw [transformData_roles] at hr
    rw [transformData_items]
    exact rolesStage_edges hr e he
  · exact fun gr hgr e he => transformGroups_edges hgr e he
  · intro p hp e he
    rw [transformData_products] at hp
    have hp' := mem_of_mem_collectByKey hp
    rw [transformData_items, transformData_roles]
    exact ((productsStage_products _ _ _ _) p hp').1 e he
  · intro up hup e he
    rw [transformData_userProducts] at hup
    have h := (userProductsStage_edges hup).1 e he
    rw [transformData_userProducts]
    exact h
  · intro u hu e he
    rw [transformData_users] at hu
    rw [transformData_items, transformData_roles]
    exact (usersStage_edges hu).1 e he
  · intro r hr
    rw [transformData_roles] at hr
    exact rolesStage_sorted hr
  · intro p hp
    rw [transformData_products] at hp
    have hp' := mem_of_mem_collectByKey hp
    exact ((productsStage_products _ _ _ _) p hp').2
  · intro up hup
    rw [transformData_userProducts] at hup
    exact (userProductsStage_edges hup).2
  · intro u hu
    rw [transformData_users] at hu
    exact (usersStage_edges hu).2

open Binary in
/-- C1 (witness): the closure theorem applied to the concrete record set
`groupDupBD` — its surviving group edge `paint:ib` resolves against the
closed item set, and its (singleton) role list is sorted. -/
theorem C1_witness :
    groupEdgeValid (transformData groupDupBD).items (transformData groupDupBD).roles
      { id := "ib", kind := EdgeKind.paint, active := true } = true :=
  (C1_transform_closure groupDupBD).2.1
    { id := "g1", productId := "",
      edges := [{ id := "ib", kind := .paint, active := true },
                { id := "ia", kind := .badge, active := true },
                { id := "ia", kind := .badge, active := true }] }
    (by decide) _ (by decide)

namespace Binary

theorem remapEdge_badge {y : Edge} (h : (remapEdge y).kind = EdgeKind.badge) :
    badgeToRoles.find? (fun p => p.1 == (remapEdge y).id) = none := by
  unfold remapEdge at h ⊢
  by_cases hy : y.kind == EdgeKind.badge
  · rw [if_pos hy] at h ⊢
    cases hf : badgeToRoles.find? (fun p => p.1 == y.id) with
    | some p =>
      rw [hf] at h
      simp at h
    | none =>
      rw [hf]
  · rw [if_neg hy] at h ⊢
    exact absurd h (by simpa using hy)

theorem usersStage_eq_map {items : List Item} {roles : List Role}
    {products : List Product} {userProducts : List UserProduct}
    {d : BinaryData} (hn : (d.users.map User.id).Nodup) :
    usersStage items roles products userProducts d =
      (d.users.filter fun u => !(u.id == "")).map
        (userProcess items roles products userProducts) := by
  unfold usersStage
  refine collectByKey_eq_self ?_
  have h1 : ((d.users.filter fun u => !(u.id == "")).map
      (userProcess items roles products userProducts)).map User.id =
      (d.users.filter fun u => !(u.id == "")).map User.id := by
    rw [List.map_map]
    rfl
  rw [h1]
  exact List.Nodup.sublist (List.Sublist.map User.id (List.filter_sublist _)) hn

end Binary

open Binary in
/-- C8 (amended): in the users stage, every Badge-kind edge whose target is
a remap-table source is rewritten in place to a Role-kind edge at the mapped
role before the referential-validity filter runs.  Consequently (a) no user
record surviving the transform holds a Badge-kind edge with a remappable
target, and (b) over an input whose user ids are pairwise distinct, a user
holding such a badge edge ends up holding the mapped Role edge (with the
original `active` flag) provided the mapped role is present in the closed
role set — without that proviso the rewritten edge is dropped, as the
counterexample shows. -/
theorem C8_user_badge_remap :
    ∀ d : Binary.BinaryData,
      (∀ u ∈ (transformData d).users, ∀ e ∈ u.edges,
        e.kind = EdgeKind.badge →
        badgeToRoles.find? (fun p => p.1 == e.id) = none) ∧
      ((d.users.map User.id).Nodup →
        ∀ u₀ ∈ d.users, u₀.id ≠ "" → ∀ e₀ ∈ u₀.edges,
          e₀.kind = EdgeKind.badge →
          ∀ pr : String × String,
            badgeToRoles.find? (fun p => p.1 == e₀.id) = some pr →
            containsKey Role.id (transformData d).roles pr.2 = true →
            ((transformData d).users.any (fun u => u.id == u₀.id) = true) ∧
            (∀ u' ∈ (transformData d).users, u'.id = u₀.id →
              ({ id := pr.2, kind := EdgeKind.role, active := e₀.active } : Edge)
                ∈ u'.edges)) := by
  intro d
  constructor
  · intro u hu e he hbadge
    rw [transformData_users] at hu
    unfold usersStage at hu
    have hu' := mem_of_mem_collectByKey hu
    rcases List.mem_map.mp hu' with ⟨u₀, hu₀, rfl⟩
    unfold userProcess at he
    simp only at he
    rw [mem_sortDedup] at he
    have he' := (List.mem_filter.mp he).1
    rcases List.mem_map.mp he' with ⟨y, hy, rfl⟩
    exact remapEdge_badge hbadge
  · intro hn u₀ hu₀ hid e₀ he₀ hbadge pr hfind hrole
    have husers : (transformData d).users =
        (d.users.filter fun u => !(u.id == "")).map
          (userProcess (itemsStage d) (rolesStage (itemsStage d) d)
            (transformData d).products (transformData d).userProducts) := by
      rw [transformData_users]
      exact usersStage_eq_map hn
    have hu₀f : u₀ ∈ d.users.filter fun u => !(u.id == "") :=
      List.mem_filter.mpr ⟨hu₀, by simpa using hid⟩
    have hremap : remapEdge e₀ =
        { id := pr.2, kind := EdgeKind.role, active := e₀.active } := by
      unfold remapEdge
      rw [if_pos (by simpa using hbadge), hfind]
    have hmem : ({ id := pr.2, kind := EdgeKind.role, active := e₀.active } : Edge)
        ∈ (userProcess (itemsStage d) (rolesStage (itemsStage d) d)
          (transformData d).products (transformData d).userProducts u₀).edges := by
      unfold userProcess
      simp only
      rw [mem_sortDedup]
      refine List.mem_filter.mpr ⟨?_, ?_⟩
      · rw [← hremap]
        exact List.mem_map_of_mem remapEdge he₀
      · unfold userEdgeValid
        simp only
        rw [transformData_roles] at hrole
        exact hrole
    constructor
    · rw [husers]
      refine List.any_eq_true.mpr ⟨_, List.mem_map_of_mem _ hu₀f, ?_⟩
      exact beq_self_eq_true u₀.id
    · intro u' hu' hids
      rw [husers] at hu'
      rcases List.mem_map.mp hu' with ⟨u₁, hu₁, rfl⟩
      have hu₁id : u₁.id = u₀.id := hids
      have : u₁ = u₀ := by
        have hnf : ((d.users.filter fun u => !(u.id == "")).map User.id).Nodup :=
          List.Nodup.sublist (List.Sublist.map User.id (List.filter_sublist _)) hn
        exact List.inj_on_of_nodup_map hnf hu₁ hu₀f hu₁id
      rw [this]
      exact hmem

open Binary in
/-- C8 (witness): on the concrete record set `c8Good` (one user holding the
legacy admin badge, admin role present), the remap theorem yields that the
transformed user set contains the user and that its record holds the mapped
role edge. -/
theorem C8_witness :
    ((transformData c8Good).users.any (fun u => u.id == "u1") = true) ∧
    ({ id := "6102002eab1aa12bf648cfcd", kind := EdgeKind.role, active := true } :
        Edge) ∈
      ({ id := "u1", username := "alice",
         edges := [{ id := "6102002eab1aa12bf648cfcd", kind := EdgeKind.role,
                     active := true }] } : User).edges := by
  have h := (C8_user_badge_remap c8Good).2 (by decide)
    { id := "u1", username := "alice",
      edges := [{ id := "62f98382e46eb00e438a6971", kind := EdgeKind.badge,
                  active := true }] }
    (by decide) (by decide)
    { id := "62f98382e46eb00e438a6971", kind := EdgeKind.badge, active := true }
    (by decide) rfl
    ("62f98382e46eb00e438a6971", "6102002eab1aa12bf648cfcd")
    (by decide) (by decide)
  refine ⟨h.1, ?_⟩
  refine h.2 ({ id := "u1", username := "alice",
                edges := [{ id := "6102002eab1aa12bf648cfcd",
                            kind := EdgeKind.role, active := true }] } : User)
    ?_ rfl
  decide

theorem map_eq_self {α : Type} {f : α → α} {l : List α}
    (h : ∀ x ∈ l, f x = x) : l.map f = l := by
  have h1 : l.map f = l.map id := List.map_congr_left fun a ha => (h a ha).trans rfl
  rw [h1, List.map_id]

namespace Binary

theorem collectByKey_filter_self {α : Type} {key : α → String}
    {pred : α → Bool} {m : List α} (hn : (m.map key).Nodup)
    (hp : ∀ x ∈ m, pred x = true) :
    collectByKey key (m.filter pred) = m := by
  rw [List.filter_eq_self.mpr hp]
  exact collectByKey_eq_self hn

theorem remapEdge_idem (e : Edge) : remapEdge (remapEdge e) = remapEdge e := by
  by_cases hb : e.kind == EdgeKind.badge
  · cases hf : badgeToRoles.find? (fun p => p.1 == e.id) with
    | some p =>
      have h1 : remapEdge e =
          { id := p.2, kind := EdgeKind.role, active := e.active } := by
        unfold remapEdge
        rw [if_pos hb, hf]
      rw [h1]
      rfl
    | none =>
      have h1 : remapEdge e = e := by
        unfold remapEdge
        rw [if_pos hb, hf]
      rw [h1, h1]
  · have h1 : remapEdge e = e := by
      unfold remapEdge
      rw [if_neg hb]
    rw [h1, h1]

theorem roleProcess_idem (items : List Item) (r : Role) :
    roleProcess items (roleProcess items r) = roleProcess items r := by
  unfold roleProcess
  simp only
  congr 1
  refine (sortDedup_ext fun x => ?_).trans (sortDedup_idem _)
  constructor
  · intro hx
    rw [mem_sortDedup]
    rcases List.mem_append.mp hx with h1 | h1
    · exact mem_sortDedup.mp (List.mem_filter.mp h1).1
    · exact List.mem_append.mpr (Or.inr h1)
  · intro hx
    rw [mem_sortDedup] at hx
    rcases List.mem_append.mp hx with h1 | h1
    · refine List.mem_append.mpr (Or.inl (List.mem_filter.mpr ⟨?_, (List.mem_filter.mp h1).2⟩))
      rw [mem_sortDedup]
      exact List.mem_append.mpr (Or.inl h1)
    · exact List.mem_append.mpr (Or.inr h1)

end Binary

namespace Binary

theorem roleProcess_id (items : List Item) (r : Role) :
    (roleProcess items r).id = r.id := rfl

theorem itemsStage_nonempty {d : BinaryData} {x : Item}
    (h : x ∈ itemsStage d) : (!(x.id == "")) = true := by
  unfold itemsStage at h
  exact (List.mem_filter.mp (mem_of_mem_collectByKey h)).2

theorem itemsStage_idem (d : BinaryData) :
    itemsStage (transformData d) = (transformData d).items := by
  rw [transformData_items]
  show collectByKey Item.id ((itemsStage d).filter fun c => !(c.id == "")) = _
  refine collectByKey_filter_self ?_ ?_
  · unfold itemsStage
    exact keys_collectByKey_nodup _ _
  · exact fun x hx => itemsStage_nonempty hx

theorem mem_rolesStage_process {items : List Item} {d : BinaryData} {r : Role}
    (h : r ∈ rolesStage items d) : roleProcess items r = r := by
  unfold rolesStage at h
  have h' := mem_of_mem_collectByKey h
  rcases List.mem_map.mp h' with ⟨r₀, -, rfl⟩
  exact roleProcess_idem items r₀

theorem rolesStage_nonempty {items : List Item} {d : BinaryData} {r : Role}
    (h : r ∈ rolesStage items d) : (!(r.id == "")) = true := by
  unfold rolesStage at h
  have h' := mem_of_mem_collectByKey h
  rcases List.mem_map.mp h' with ⟨r₀, h₀, rfl⟩
  rw [show (roleProcess items r₀).id = r₀.id from rfl]
  rcases List.mem_append.mp h₀ with h1 | h1
  · exact (List.mem_filter.mp h1).2
  · simp only [newRoles, List.mem_cons, List.mem_singleton] at h1
    rcases h1 with rfl | rfl | h1
    · decide
    · decide
    · simp at h1

theorem rolesStage_mem_newRoles (items : List Item) (d : BinaryData) :
    ∀ r ∈ newRoles, roleProcess items r ∈ rolesStage items d := by
  intro r hr
  unfold rolesStage
  have hsplit : ((d.roles.filter fun r => !(r.id == "")) ++ newRoles) =
      (((d.roles.filter fun r => !(r.id == "")) ++ [newRoles[0]]) ++ [newRoles[1]]) := by
    simp [newRoles]
  rw [hsplit, List.map_append, List.map_append, List.map_singleton,
    List.map_singleton, collectByKey_append_singleton, collectByKey_append_singleton]
  simp only [newRoles, List.mem_cons, List.mem_singleton] at hr
  rcases hr with rfl | rfl | hr
  · refine mem_keyUpdate_of_ne (mem_keyUpdate_self _) ?_
    rw [roleProcess_id, roleProcess_id]
    decide
  · exact mem_keyUpdate_self _
  · simp at hr

end Binary

namespace Binary

theorem rolesStage_idem (d : BinaryData) :
    rolesStage (itemsStage d) (transformData d) = (transformData d).roles := by
  have hfil : (transformData d).roles.filter (fun r => !(r.id == "")) =
      (transformData d).roles :=
    List.filter_eq_self.mpr fun r hr =>
      rolesStage_nonempty (transformData_roles d ▸ hr)
  have hmapself : (transformData d).roles.map (roleProcess (itemsStage d)) =
      (transformData d).roles :=
    map_eq_self fun r hr => mem_rolesStage_process (transformData_roles d ▸ hr)
  show collectByKey Role.id
      (((transformData d).roles.filter (fun r => !(r.id == "")) ++ newRoles).map
        (roleProcess (itemsStage d))) = (transformData d).roles
  rw [hfil, List.map_append, hmapself]
  refine collectByKey_absorb ?_ ?_
  · rw [transformData_roles]
    unfold rolesStage
    exact keys_collectByKey_nodup _ _
  · intro x hx
    rcases List.mem_map.mp hx with ⟨r₀, hr₀, rfl⟩
    rw [transformData_roles]
    exact rolesStage_mem_newRoles (itemsStage d) d r₀ hr₀

end Binary

namespace Binary

theorem groupsStage_nonempty {items : List Item} {roles : List Role}
    {d : BinaryData} {gr : Group} (h : gr ∈ groupsStage items roles d) :
    (!(gr.id == "")) = true := by
  unfold groupsStage at h
  have h' := mem_of_mem_collectByKey h
  rcases List.mem_map.mp h' with ⟨gr₀, h₀, rfl⟩
  rw [show (groupProcess items roles gr₀).id = gr₀.id from rfl]
  exact (List.mem_filter.mp h₀).2

theorem transformGroups_nonempty {d : BinaryData} {gr : Group}
    (h : gr ∈ (transformData d).groups) : (!(gr.id == "")) = true := by
  rw [transformData_groups] at h
  unfold productsGroups at h
  obtain ⟨gr₀, hg₀, hsh⟩ := mem_map_shape (productsStage_groups_shape _ _ _ _) h
  have hid : gr₀.id = gr.id := congrArg Prod.fst hsh
  rw [← hid]
  exact groupsStage_nonempty hg₀

theorem transformGroups_keys_nodup (d : BinaryData) :
    ((transformData d).groups.map Group.id).Nodup := by
  have h1 : (transformData d).groups.map Group.id =
      ((transformData d).groups.map groupShape).map Prod.fst := by
    rw [List.map_map]
    rfl
  rw [h1, transformData_groups]
  unfold productsGroups
  rw [productsStage_groups_shape]
  have h2 : ((groupsStage (itemsStage d) (rolesStage (itemsStage d) d) d).map
      groupShape).map Prod.fst =
      (groupsStage (itemsStage d) (rolesStage (itemsStage d) d) d).map Group.id := by
    rw [List.map_map]
    rfl
  rw [h2]
  unfold groupsStage
  exact keys_collectByKey_nodup _ _

theorem groupsStage_idem (d : BinaryData) :
    groupsStage (transformData d).items (transformData d).roles (transformData d) =
      (transformData d).groups := by
  have hfil : (transformData d).groups.filter (fun gr => !(gr.id == "")) =
      (transformData d).groups :=
    List.filter_eq_self.mpr fun gr hgr => transformGroups_nonempty hgr
  have hmapself : (transformData d).groups.map
      (groupProcess (transformData d).items (transformData d).roles) =
      (transformData d).groups := by
    refine map_eq_self fun gr hgr => ?_
    unfold groupProcess
    have hedges : gr.edges.filter
        (groupEdgeValid (transformData d).items (transformData d).roles) =
        gr.edges :=
      List.filter_eq_self.mpr fun e he => transformGroups_edges hgr e he
    rw [hedges]
  show collectByKey Group.id
      (((transformData d).groups.filter (fun gr => !(gr.id == ""))).map
        (groupProcess (transformData d).items (transformData d).roles)) =
      (transformData d).groups
  rw [hfil, hmapself]
  exact collectByKey_eq_self (transformGroups_keys_nodup d)

end Binary

namespace Binary

theorem productFold_of_valid (items : List Item) (roles : List Role)
    (pid : String) (es : List Edge)
    (hv : ∀ e ∈ es, productEdgeValid items roles e = true) :
    ∀ (acc : List Edge) (gs : List Group),
      es.foldl (productEdgeStep items roles pid) (acc, gs) = (acc ++ es, gs) := by
  induction es with
  | nil => intro acc gs; rw [List.foldl_nil, List.append_nil]
  | cons e rest ih =>
    intro acc gs
    have hev := hv e (List.mem_cons_self e rest)
    have hstep : productEdgeStep items roles pid (acc, gs) e = (acc ++ [e], gs) := by
      unfold productEdgeStep
      unfold productEdgeValid at hev
      cases hk : e.kind with
      | badge => rw [hk] at hev; simp only [hk]; rw [if_pos hev]
      | paint => rw [hk] at hev; simp only [hk]; rw [if_pos hev]
      | emoteSet => rw [hk] at hev; simp only [hk]; rw [if_pos hev]
      | role => rw [hk] at hev; simp only [hk]; rw [if_pos hev]
      | product => rw [hk] at hev; simp at hev
      | userProduct => rw [hk] at hev; simp at hev
      | group => rw [hk] at hev; simp at hev
    rw [List.foldl_cons, hstep,
      ih (fun e' he' => hv e' (List.mem_cons_of_mem e he')) (acc ++ [e]) gs,
      List.append_assoc]
    rfl

theorem productsStage_of_processed (items : List Item) (roles : List Role)
    (ps : List Product)
    (hv : ∀ p ∈ ps, (∀ e ∈ p.edges, productEdgeValid items roles e = true) ∧
      List.Sorted Edge.le p.edges ∧ p.edges.Nodup) :
    ∀ (acc : List Product) (gs : List Group),
      ps.foldl
        (fun (st : List Product × List Group) p =>
          let r := p.edges.foldl (productEdgeStep items roles p.id) ([], st.2)
          (st.1 ++ [{ p with edges := sortDedup r.1 }], r.2)) (acc, gs) =
      (acc ++ ps, gs) := by
  induction ps with
  | nil => intro acc gs; rw [List.foldl_nil, List.append_nil]
  | cons p rest ih =>
    intro acc gs
    obtain ⟨hval, hsort, hnd⟩ := hv p (List.mem_cons_self p rest)
    rw [List.foldl_cons]
    have hinner : p.edges.foldl (productEdgeStep items roles p.id) ([], gs) =
        (p.edges, gs) := by
      rw [productFold_of_valid items roles p.id p.edges hval [] gs,
        List.nil_append]
    simp only [hinner]
    have hprod : ({ p with edges := sortDedup p.edges } : Product) = p := by
      have h1 : sortDedup p.edges = p.edges := sortDedup_eq_self hsort hnd
      rw [h1]
    rw [hprod, ih (fun p' hp' => hv p' (List.mem_cons_of_mem p hp')) (acc ++ [p]) gs,
      List.append_assoc]
    rfl

theorem productsGroups_eq_fold (items : List Item) (roles : List Role)
    (gs : List Group) (d : BinaryData) :
    productsGroups items roles gs d =
      (d.products.filter fun p => !(p.id == "")).foldl
        (fun (st : List Product × List Group) p =>
          let r := p.edges.foldl (productEdgeStep items roles p.id) ([], st.2)
          (st.1 ++ [{ p with edges := sortDedup r.1 }], r.2)) ([], gs) := rfl

end Binary

namespace Binary

theorem productsFold_ids (items : List Item) (roles : List Role) :
    ∀ (ps : List Product) (st : List Product × List Group),
      ((ps.foldl
        (fun (st : List Product × List Group) p =>
          let r := p.edges.foldl (productEdgeStep items roles p.id) ([], st.2)
          (st.1 ++ [{ p with edges := sortDedup r.1 }], r.2)) st).1).map Product.id =
      st.1.map Product.id ++ ps.map Product.id := by
  intro ps
  induction ps with
  | nil => intro st; rw [List.foldl_nil, List.map_nil, List.append_nil]
  | cons p rest ih =>
    intro st
    rw [List.foldl_cons]
    rw [ih]
    simp only [List.map_append, List.map_singleton, List.map_cons]
    rw [List.append_assoc]
    rfl

theorem transformProducts_mem {d : BinaryData} {p : Product}
    (h : p ∈ (transformData d).products) :
    p ∈ (productsGroups (itemsStage d) (rolesStage (itemsStage d) d)
      (groupsStage (itemsStage d) (rolesStage (itemsStage d) d) d) d).1 := by
  rw [transformData_products] at h
  exact mem_of_mem_collectByKey h

theorem transformProducts_nonempty {d : BinaryData} {p : Product}
    (h : p ∈ (transformData d).products) : (!(p.id == "")) = true := by
  have hp := transformProducts_mem h
  rw [productsGroups_eq_fold] at hp
  have hid : p.id ∈ ((d.products.filter fun p => !(p.id == "")).foldl
      (fun (st : List Product × List Group) p =>
        let r := p.edges.foldl (productEdgeStep (itemsStage d)
          (rolesStage (itemsStage d) d) p.id) ([], st.2)
        (st.1 ++ [{ p with edges := sortDedup r.1 }], r.2))
      ([], groupsStage (itemsStage d) (rolesStage (itemsStage d) d) d)).1.map
        Product.id :=
    List.mem_map_of_mem Product.id hp
  rw [productsFold_ids] at hid
  rw [List.map_nil, List.nil_append] at hid
  rcases List.mem_map.mp hid with ⟨p₀, hp₀, hpid⟩
  rw [← hpid]
  exact (List.mem_filter.mp hp₀).2

theorem transformProducts_props {d : BinaryData} {p : Product}
    (h : p ∈ (transformData d).products) :
    (∀ e ∈ p.edges, productEdgeValid (transformData d).items
      (transformData d).roles e = true) ∧
    List.Sorted Edge.le p.edges ∧ p.edges.Nodup := by
  have hp := transformProducts_mem h
  rw [transformData_items, transformData_roles]
  exact (productsStage_products _ _ _ _) p hp

theorem productsGroups_idem (d : BinaryData) :
    productsGroups (transformData d).items (transformData d).roles
      (transformData d).groups (transformData d) =
      ((transformData d).products, (transformData d).groups) := by
  rw [productsGroups_eq_fold]
  rw [show (transformData d).products.filter (fun p => !(p.id == "")) =
      (transformData d).products from
    List.filter_eq_self.mpr fun p hp => transformProducts_nonempty hp]
  rw [productsStage_of_processed (transformData d).items (transformData d).roles
    (transformData d).products (fun p hp => transformProducts_props hp) []
    (transformData d).groups]
  rw [List.nil_append]

end Binary

namespace Binary

theorem transformUserProducts_keys_nodup (d : BinaryData) :
    ((transformData d).userProducts.map UserProduct.id).Nodup := by
  rw [transformData_userProducts, userProductsStage_ids]
  exact keys_collectByKey_nodup _ _

theorem userProductsStage_idem (d : BinaryData) :
    userProductsStage (transformData d).groups (transformData d).products
      (transformData d) = (transformData d).userProducts := by
  have hkeys := transformUserProducts_keys_nodup d
  have hcol : collectByKey UserProduct.id (transformData d).userProducts =
      (transformData d).userProducts := collectByKey_eq_self hkeys
  show (collectByKey UserProduct.id (transformData d).userProducts).map _ =
    (transformData d).userProducts
  rw [hcol]
  refine map_eq_self fun up hup => ?_
  have hmem : up ∈ userProductsStage (transformData d).groups
      (transformData d).products d := by
    rw [← transformData_userProducts]
    exact hup
  obtain ⟨hvalid, hsort, hnd⟩ := userProductsStage_edges hmem
  have hfil : up.edges.filter
      (upEdgeValid (transformData d).groups (transformData d).products
        ((transformData d).userProducts.map UserProduct.id)) = up.edges := by
    refine List.filter_eq_self.mpr fun e he => ?_
    have h := hvalid e he
    rw [← transformData_userProducts] at h
    exact h
  rw [hfil, sortDedup_eq_self hsort hnd]

theorem userProcess_idem (items : List Item) (roles : List Role)
    (products : List Product) (userProducts : List UserProduct) (u : User) :
    userProcess items roles products userProducts
      (userProcess items roles products userProducts u) =
    userProcess items roles products userProducts u := by
  unfold userProcess
  simp only
  congr 1
  have hmap : (sortDedup ((u.edges.map remapEdge).filter
      (userEdgeValid items roles products userProducts))).map remapEdge =
      sortDedup ((u.edges.map remapEdge).filter
        (userEdgeValid items roles products userProducts)) := by
    refine map_eq_self fun x hx => ?_
    rw [mem_sortDedup] at hx
    rcases List.mem_map.mp (List.mem_filter.mp hx).1 with ⟨y, -, rfl⟩
    exact remapEdge_idem y
  rw [hmap]
  have hfil : (sortDedup ((u.edges.map remapEdge).filter
      (userEdgeValid items roles products userProducts))).filter
      (userEdgeValid items roles products userProducts) =
      sortDedup ((u.edges.map remapEdge).filter
        (userEdgeValid items roles products userProducts)) := by
    refine List.filter_eq_self.mpr fun e he => ?_
    rw [mem_sortDedup] at he
    exact (List.mem_filter.mp he).2
  rw [hfil]
  exact sortDedup_idem _

theorem transformUsers_nonempty {d : BinaryData} {u : User}
    (h : u ∈ (transformData d).users) : (!(u.id == "")) = true := by
  rw [transformData_users] at h
  unfold usersStage at h
  have h' := mem_of_mem_collectByKey h
  rcases List.mem_map.mp h' with ⟨u₀, h₀, rfl⟩
  rw [show (userProcess (itemsStage d) (rolesStage (itemsStage d) d)
    (transformData d).products (transformData d).userProducts u₀).id = u₀.id from rfl]
  exact (List.mem_filter.mp h₀).2

theorem transformUsers_keys_nodup (d : BinaryData) :
    ((transformData d).users.map User.id).Nodup := by
  rw [transformData_users]
  unfold usersStage
  exact keys_collectByKey_nodup _ _

theorem mem_transformUsers_process {d : BinaryData} {u : User}
    (h : u ∈ (transformData d).users) :
    userProcess (transformData d).items (transformData d).roles
      (transformData d).products (transformData d).userProducts u = u := by
  rw [transformData_users] at h
  unfold usersStage at h
  have h' := mem_of_mem_collectByKey h
  rcases List.mem_map.mp h' with ⟨u₀, -, rfl⟩
  rw [transformData_items, transformData_roles]
  exact userProcess_idem _ _ _ _ u₀

theorem usersStage_idem (d : BinaryData) :
    usersStage (transformData d).items (transformData d).roles
      (transformData d).products (transformData d).userProducts
      (transformData d) = (transformData d).users := by
  have hfil : (transformData d).users.filter (fun u => !(u.id == "")) =
      (transformData d).users :=
    List.filter_eq_self.mpr fun u hu => transformUsers_nonempty hu
  have hmapself : (transformData d).users.map
      (userProcess (transformData d).items (transformData d).roles
        (transformData d).products (transformData d).userProducts) =
      (transformData d).users :=
    map_eq_self fun u hu => mem_transformUsers_process hu
  show collectByKey User.id
      (((transformData d).users.filter (fun u => !(u.id == ""))).map
        (userProcess (transformData d).items (transformData d).roles
          (transformData d).products (transformData d).userProducts)) =
      (transformData d).users
  rw [hfil, hmapself]
  exact collectByKey_eq_self (transformUsers_keys_nodup d)

end Binary

open Binary in
/-- C3: `transform_data` is idempotent — applying it to its own output
reproduces the identical closed data set: the same records in the same
order, with each record's edge list unchanged (already filtered against the
same closed sets, already sorted and deduplicated, with the legacy remap a
no-op on its own output).  Record order is the association-list order of
the model's map collection. -/
theorem C3_transform_idempotent :
    ∀ d : Binary.BinaryData,
      Binary.transformData (Binary.transformData d) = Binary.transformData d := by
  intro d
  have h1 : itemsStage (transformData d) = (transformData d).items :=
    itemsStage_idem d
  have h2 : rolesStage (transformData d).items (transformData d) =
      (transformData d).roles := by
    rw [transformData_items]
    exact rolesStage_idem d
  have h3 : groupsStage (transformData d).items (transformData d).roles
      (transformData d) = (transformData d).groups := groupsStage_idem d
  have hpgA : (productsGroups (transformData d).items (transformData d).roles
      (transformData d).groups (transformData d)).1 = (transformData d).products := by
    rw [productsGroups_idem d]
  have hpgB : (productsGroups (transformData d).items (transformData d).roles
      (transformData d).groups (transformData d)).2 = (transformData d).groups := by
    rw [productsGroups_idem d]
  have h5 : collectByKey Product.id (transformData d).products =
      (transformData d).products := by
    refine collectByKey_eq_self ?_
    rw [transformData_products]
    exact keys_collectByKey_nodup _ _
  have h6 : userProductsStage (transformData d).groups (transformData d).products
      (transformData d) = (transformData d).userProducts :=
    userProductsStage_idem d
  have h7 : usersStage (transformData d).items (transformData d).roles
      (transformData d).products (transformData d).userProducts
      (transformData d) = (transformData d).users := usersStage_idem d
  set T := transformData d with hT
  show transformData T = T
  conv_lhs => unfold transformData
  simp only [h1, h2, h3, hpgA, hpgB, h5, h6, h7]
